import Mathlib

/-!
Verification of the chunking core of `owu-chroma` (`src/owu_chroma/chunkers.py`).

Python strings are modelled as `List Char`.  `str.strip()` is `pyStrip`
(ASCII whitespace, the characters `str.isspace` recognises in the inputs at
hand).  The `re.split` calls of the source are modelled by direct character
scanners with the same leftmost-match semantics, and the boundary-pattern
regexes of `CodeChunker` by a small backtracking regex engine (`Re`, `mlen`)
whose candidate order matches Python's leftmost/greedy backtracking order.
-/

/-- ASCII whitespace, as recognised by `str.strip()` / regex `\s`. -/
def pySpace (c : Char) : Bool :=
  c = ' ' || c = '\t' || c = '\n' || c = '\r' || c = '\x0b' || c = '\x0c'

/-- `str.strip()`: drop whitespace from both ends. -/
def pyStrip (l : List Char) : List Char :=
  ((l.dropWhile pySpace).reverse.dropWhile pySpace).reverse

/-- Python `s[-n:]` for `n > 0` (and `s[a:]` via `List.drop`). -/
def lastN (n : Nat) (l : List Char) : List Char :=
  l.drop (l.length - n)

/-- Python `s[a:b]`. -/
def pySlice (l : List Char) (a b : Nat) : List Char :=
  (l.drop a).take (b - a)

/-- `str.split(sep)` with a one-character separator (keeps empty parts). -/
def splitCharAux (sep : Char) : List Char → List Char → List (List Char)
  | [], acc => [acc.reverse]
  | c :: rest, acc =>
    if c = sep then acc.reverse :: splitCharAux sep rest []
    else splitCharAux sep rest (c :: acc)

def pySplitOn (sep : Char) (l : List Char) : List (List Char) :=
  splitCharAux sep l []

/-- Sentence-terminal punctuation of `TextChunker`'s splitting regex. -/
def isSentEnd (c : Char) : Bool := c = '.' || c = '!' || c = '?'

/-- Scanner for `re.split(r'(?<=[.!?])\s+', content)`: a separator is a
maximal whitespace run immediately preceded by `.`, `!` or `?`.  `acc` is the
current piece reversed; `skipping` means we are inside a separator run. -/
def sentAux : List Char → List Char → Bool → List (List Char)
  | [], acc, _ => [acc.reverse]
  | c :: rest, acc, skipping =>
    if skipping then
      if pySpace c then sentAux rest [] true
      else sentAux rest [c] false
    else if pySpace c && (match acc.head? with | some d => isSentEnd d | none => false) then
      acc.reverse :: sentAux rest [] true
    else sentAux rest (c :: acc) false

def splitSentences (l : List Char) : List (List Char) := sentAux l [] false

/-- Scanner for `re.split(r'\n\n+', section)`: a separator is a maximal run
of two or more newlines. -/
def paraAux : List Char → List Char → Bool → List (List Char)
  | [], acc, _ => [acc.reverse]
  | c :: rest, acc, skipping =>
    if skipping then
      if c = '\n' then paraAux rest [] true
      else paraAux rest [c] false
    else if c = '\n' ∧ acc.head? = some '\n' then
      acc.tail.reverse :: paraAux rest [] true
    else paraAux rest (c :: acc) false

def splitParagraphs (l : List Char) : List (List Char) := paraAux l [] false

/-- State of the scanner for `re.split(r'\n\s*\n+', content)`.
`afterNL w`: a `'\n'` was read, followed by the (reversed) non-newline
whitespace `w`, and no second newline yet.  `sep buf`: the separator match is
confirmed; `buf` is the (reversed) non-newline whitespace read since the last
newline of the run (it belongs to the next piece, exactly as Python's greedy
`\n\s*\n+` match ends at the last newline of the whitespace run). -/
inductive BlockState where
  | plain : BlockState
  | afterNL : List Char → BlockState
  | sep : List Char → BlockState

def blockAux : List Char → List Char → BlockState → List (List Char)
  | [], acc, .plain => [acc.reverse]
  | [], acc, .afterNL w => [acc.reverse ++ '\n' :: w.reverse]
  | [], _, .sep buf => [buf.reverse]
  | c :: rest, acc, .plain =>
    if c = '\n' then blockAux rest acc (.afterNL [])
    else blockAux rest (c :: acc) .plain
  | c :: rest, acc, .afterNL w =>
    if c = '\n' then acc.reverse :: blockAux rest [] (.sep [])
    else if pySpace c then blockAux rest acc (.afterNL (c :: w))
    else blockAux rest (c :: (w ++ '\n' :: acc)) .plain
  | c :: rest, _, .sep buf =>
    if c = '\n' then blockAux rest [] (.sep [])
    else if pySpace c then blockAux rest [] (.sep (c :: buf))
    else blockAux rest (c :: buf) .plain

def splitBlocks (l : List Char) : List (List Char) := blockAux l [] .plain

/-! ### A small regex engine

`mlen re s` lists the lengths of the possible matches of `re` against a
prefix of `s`, in Python's backtracking preference order (alternatives left
to right, quantifiers greedy).  `(mlen re s).head?` is therefore the match
Python's engine finds at this position.  Quantifiers are restricted to
character classes, which covers every pattern in `CodeChunker`. -/

inductive Re where
  | cls : (Char → Bool) → Re
  | lit : List Char → Re
  | seq : Re → Re → Re
  | alt : Re → Re → Re
  | opt : Re → Re
  | star : (Char → Bool) → Re
  | plus : (Char → Bool) → Re

def mlen : Re → List Char → List Nat
  | .cls _, [] => []
  | .cls p, c :: _ => if p c then [1] else []
  | .lit w, s => if w.isPrefixOf s then [w.length] else []
  | .seq a b, s => (mlen a s).flatMap (fun m => (mlen b (s.drop m)).map (m + ·))
  | .alt a b, s => mlen a s ++ mlen b s
  | .opt a, s => mlen a s ++ [0]
  | .star p, s =>
    (List.range ((s.takeWhile p).length + 1)).map (fun j => (s.takeWhile p).length - j)
  | .plus p, s =>
    (List.range (s.takeWhile p).length).map (fun j => (s.takeWhile p).length - j)

/-- `re.finditer` start positions: scan left to right, record the start of
each (non-overlapping) match and resume after its end.  The third argument
counts characters still covered by the previous match.  None of the source
patterns can match the empty string (each starts with `\n`), so scanning
stops at the end of input. -/
def finditerAux (re : Re) : List Char → Nat → Nat → List Nat
  | [], _, _ => []
  | s@(_ :: rest), i, skip =>
    match skip with
    | k + 1 => finditerAux re rest (i + 1) k
    | 0 =>
      match (mlen re s).head? with
      | some m => i :: finditerAux re rest (i + 1) (max m 1 - 1)
      | none => finditerAux re rest (i + 1) 0

def finditer (re : Re) (l : List Char) : List Nat := finditerAux re l 0 0

/-- `sorted(set(xs))`. -/
def insertPos (x : Nat) : List Nat → List Nat
  | [] => [x]
  | y :: r =>
    if x < y then x :: y :: r
    else if x = y then y :: r
    else y :: insertPos x r

def sortedDedup (l : List Nat) : List Nat := l.foldr insertPos []

/-! ### Chunk records -/

/-- One chunk dict produced by the chunkers: `content`, `source_file` and the
`metadata` fields (`chunk_type`, and optionally `section_index` /
`language`). -/
structure PyChunk where
  content : List Char
  source_file : List Char
  chunk_type : String
  section_index : Option Nat := none
  language : Option String := none
deriving DecidableEq

/-! ### TextChunker -/

namespace TextChunker

def mk (path content : List Char) : PyChunk :=
  { content := content, source_file := path, chunk_type := "text" }

/-- The sentence-packing loop of `TextChunker.chunk` (lines 272-298).
`cur` is `current_chunk`. -/
def pack (cs ov : Nat) (path : List Char) : List (List Char) → List Char → List PyChunk
  | [], cur =>
    if pyStrip cur = [] then [] else [mk path (pyStrip cur)]
  | s :: rest, cur =>
    if cs ≤ cur.length + s.length then
      (if cur = [] then [] else [mk path (pyStrip cur)]) ++
        pack cs ov path rest (if 0 < ov ∧ cur ≠ [] then lastN ov cur ++ ' ' :: s else s)
    else
      pack cs ov path rest (if cur = [] then s else cur ++ ' ' :: s)

/-- `TextChunker.chunk`. -/
def chunk (cs ov : Nat) (content path : List Char) : List PyChunk :=
  pack cs ov path (splitSentences content) []

end TextChunker

/-! ### MarkdownChunker -/

/-- Lookahead of the section-splitting regex
`re.split(r'\n(?=#{1,3}\s+[^\n]+)', content)`. -/
def headingLookahead : Re :=
  .seq (.alt (.lit ['#', '#', '#']) (.alt (.lit ['#', '#']) (.lit ['#'])))
    (.seq (.plus pySpace) (.plus (fun c => c != '\n')))

/-- Scanner for the section split: cut at a newline whose right context
matches the heading lookahead (the newline is consumed, the heading is not). -/
def sectAux : List Char → List Char → List (List Char)
  | [], acc => [acc.reverse]
  | c :: rest, acc =>
    if c = '\n' ∧ mlen headingLookahead rest ≠ [] then
      acc.reverse :: sectAux rest []
    else sectAux rest (c :: acc)

def splitSections (l : List Char) : List (List Char) := sectAux l []

namespace MarkdownChunker

def mk (path : List Char) (idx : Nat) (content : List Char) : PyChunk :=
  { content := content, source_file := path, chunk_type := "markdown",
    section_index := some idx }

/-- The paragraph-packing loop for an oversized section
(`MarkdownChunker.chunk`, lines 26-53).  Every flushed chunk content is
`current_chunk.strip()`; the paragraph is appended unconditionally after the
flush check. -/
def packSection (cs ov : Nat) (path : List Char) (idx : Nat) :
    List (List Char) → List Char → List PyChunk
  | [], cur =>
    if pyStrip cur = [] then [] else [mk path idx (pyStrip cur)]
  | p :: rest, cur =>
    if cs ≤ cur.length + p.length then
      (if cur = [] then [] else [mk path idx (pyStrip cur)]) ++
        packSection cs ov path idx rest
          ((if 0 < ov ∧ cur ≠ [] then lastN ov cur ++ ['\n', '\n'] else []) ++ p ++ ['\n', '\n'])
    else
      packSection cs ov path idx rest (cur ++ p ++ ['\n', '\n'])

/-- The enumerated-section loop of `MarkdownChunker.chunk` (lines 20-62). -/
def sections (cs ov : Nat) (path : List Char) : List (List Char) → Nat → List PyChunk
  | [], _ => []
  | s :: rest, i =>
    (if pyStrip s = [] then []
     else if cs * 2 < s.length then packSection cs ov path i (splitParagraphs s) []
     else [mk path i (pyStrip s)]) ++ sections cs ov path rest (i + 1)

/-- `MarkdownChunker.chunk`. -/
def chunk (cs ov : Nat) (content path : List Char) : List PyChunk :=
  sections cs ov path (splitSections content) 0

end MarkdownChunker

/-! ### CodeChunker -/

namespace CodeChunker

def wordChar (c : Char) : Bool := c.isAlphanum || c = '_'

def alphaU (c : Char) : Bool := c.isAlpha || c = '_'

/-- regex `.` (anything but a newline). -/
def dotChar (c : Char) : Bool := c != '\n'

def nlRe : Re := .cls (· == '\n')

def ws0 : Re := .star pySpace

def ws1 : Re := .plus pySpace

def w1 : Re := .plus wordChar

def reFail : Re := .cls (fun _ => false)

def word (s : String) : Re := .lit s.toList

def altWords (ws : List String) : Re := (ws.map word).foldr .alt reFail

def rseq (l : List Re) : Re := l.foldr .seq (.lit [])

/-- `PATTERNS`, compiled pattern by pattern from the source table. -/
def patternsFor (language : String) : List Re :=
  if language = "python" then
    [ rseq [nlRe, ws0, altWords ["def", "class"], ws1, w1],
      rseq [nlRe, ws0, altWords ["def", "class"], ws1, w1, ws0, word "(",
            .star dotChar, word "):"] ]
  else if language = "java" then
    [ rseq [nlRe, ws0, .opt (altWords ["public", "private", "protected"]), ws0,
            .opt (word "static"), ws0, altWords ["class", "interface", "enum"], ws1, w1],
      rseq [nlRe, ws0, word "@", .star dotChar, nlRe, ws0,
            .opt (altWords ["public", "private", "protected"]), ws0,
            .opt (word "static"), ws0, w1, ws1, w1, ws0, word "(", .star dotChar, word ")"] ]
  else if language = "c_cpp" then
    [ rseq [nlRe, ws0, altWords ["struct", "class", "interface", "enum"], ws1, w1],
      rseq [nlRe, ws0, .opt (rseq [word "extern", ws1]), word "\"",
            .cls (· == 'C'), .opt (word "\""), ws0, word "#include"] ]
  else if language = "javascript" then
    [ rseq [nlRe, ws0, altWords ["function", "const", "let", "var"], ws1, w1, ws0,
            word "=", ws0, .opt (rseq [word "async", ws0]), word "("],
      rseq [nlRe, ws0, .opt (rseq [word "export", ws1]), .opt (rseq [word "default", ws1]),
            word "class", ws1, w1],
      rseq [nlRe, ws0, .opt (rseq [word "export", ws1]), .opt (rseq [word "async", ws1]),
            word "function", ws1, w1, ws0, word "("] ]
  else if language = "go" then
    [ rseq [nlRe, ws0, altWords ["func", "type", "interface"], ws1, w1] ]
  else if language = "rust" then
    [ rseq [nlRe, ws0, altWords ["fn", "struct", "enum", "trait", "impl"], ws1, w1] ]
  else []

/-- `GENERIC_PATTERNS`. -/
def genericPatterns : List Re :=
  [ rseq [nlRe, ws0, .cls alphaU, .star wordChar, ws0, .cls alphaU, .star wordChar, ws0,
          word "(", .star (· != ')'), word ")", .star (· != '\x7b'), word "\x7b"],
    rseq [nlRe, ws0, word "\x7d", ws0, nlRe],
    rseq [nlRe, ws0,
          altWords ["public", "private", "protected", "static", "final", "abstract"], ws1] ]

/-- `pathlib.Path(file_path).name`: the final path component. -/
def pathName (p : List Char) : List Char :=
  (((pySplitOn '/' p).filter (· ≠ [])).getLast?).getD []

/-- `pathlib.Path(file_path).suffix`: the extension from the last dot of the
name, empty when the dot is leading, trailing or absent. -/
def pathSuffix (p : List Char) : List Char :=
  let name := pathName p
  match name.reverse.findIdx? (· == '.') with
  | none => []
  | some j =>
    let i := name.length - 1 - j
    if 0 < i ∧ i < name.length - 1 then name.drop i else []

/-- `CodeChunker.detect_language`: look the lower-cased suffix up in the
extension table; unmapped extensions yield `"generic"`. -/
def detect_language (p : List Char) : String :=
  let ext := (pathSuffix p).map Char.toLower
  if ext = ".py".toList then "python"
  else if ext = ".java".toList then "java"
  else if ext = ".c".toList then "c_cpp"
  else if ext = ".cpp".toList then "c_cpp"
  else if ext = ".cc".toList then "c_cpp"
  else if ext = ".h".toList then "c_cpp"
  else if ext = ".hpp".toList then "c_cpp"
  else if ext = ".js".toList then "javascript"
  else if ext = ".jsx".toList then "javascript"
  else if ext = ".ts".toList then "javascript"
  else if ext = ".tsx".toList then "javascript"
  else if ext = ".go".toList then "go"
  else if ext = ".rs".toList then "rust"
  else if ext = ".cs".toList then "c_cpp"
  else if ext = ".swift".toList then "c_cpp"
  else if ext = ".kt".toList then "java"
  else "generic"

/-- `CodeChunker.get_split_patterns`. -/
def get_split_patterns (language : String) : List Re :=
  if !(patternsFor language).isEmpty && language != "generic" then patternsFor language
  else genericPatterns

def mkc (path : List Char) (language : String) (content : List Char) : PyChunk :=
  { content := content, source_file := path, chunk_type := "code",
    language := some language }

/-- Python's `"\n".join`. -/
def joinNL : List (List Char) → List Char
  | [] => []
  | [x] => x
  | x :: rest => x ++ '\n' :: joinNL rest

/-- The overlap computation of `_split_large_chunk` (lines 237-244): walk the
buffer's lines from the end, keeping whole lines while their total length
stays below the overlap budget.  The argument is the reversed line list. -/
def takeTrailing (ov : Nat) : List (List Char) → Nat → List (List Char)
  | [], _ => []
  | l :: rest, total =>
    if ov ≤ total + l.length then []
    else takeTrailing ov rest (total + l.length) ++ [l]

/-- The seed `"\n".join(overlap_lines) + "\n"` of `_split_large_chunk`. -/
def overlapSeed (ov : Nat) (cur : List Char) : List Char :=
  joinNL (takeTrailing ov ((pySplitOn '\n' cur).reverse) 0) ++ ['\n']

/-- The line-packing loop of `_split_large_chunk` (lines 225-248).  Mid-run
flushes emit the raw buffer; only the final buffer is stripped. -/
def largePack (cs ov : Nat) (path : List Char) (language : String) :
    List (List Char) → List Char → List PyChunk
  | [], cur =>
    if pyStrip cur = [] then [] else [mkc path language (pyStrip cur)]
  | ln :: rest, cur =>
    if cs ≤ cur.length + ln.length then
      (if cur = [] then [] else [mkc path language cur]) ++
        largePack cs ov path language rest
          ((if 0 < ov ∧ cur ≠ [] then overlapSeed ov cur else []) ++ ln ++ ['\n'])
    else
      largePack cs ov path language rest (cur ++ ln ++ ['\n'])

/-- `CodeChunker._split_large_chunk`. -/
def split_large_chunk (cs ov : Nat) (text path : List Char) (language : String) :
    List PyChunk :=
  largePack cs ov path language (pySplitOn '\n' text) []

/-- The block-packing loop of `_newline_fallback` (lines 186-216).  Blocks
are stripped and blank ones skipped; mid-run flushes emit the raw buffer. -/
def fbPack (cs ov : Nat) (path : List Char) (language : String) :
    List (List Char) → List Char → List PyChunk
  | [], cur =>
    if pyStrip cur = [] then [] else [mkc path language (pyStrip cur)]
  | b :: rest, cur =>
    if pyStrip b = [] then fbPack cs ov path language rest cur
    else if cs ≤ cur.length + (pyStrip b).length then
      (if cur = [] then [] else [mkc path language cur]) ++
        fbPack cs ov path language rest
          ((if 0 < ov ∧ cur ≠ [] then lastN ov cur ++ ['\n', '\n'] else []) ++
            pyStrip b ++ ['\n', '\n'])
    else
      fbPack cs ov path language rest (cur ++ pyStrip b ++ ['\n', '\n'])

/-- `CodeChunker._newline_fallback`. -/
def newline_fallback (cs ov : Nat) (content path : List Char) (language : String) :
    List PyChunk :=
  fbPack cs ov path language (splitBlocks content) []

/-- The boundary walk of `CodeChunker.chunk` (lines 147-178): `prev` is
`prev_pos`; positions are processed in order; the cursor advances only when a
segment is finalized; after the last position the tail is emitted whole. -/
def walk (cs ov : Nat) (content path : List Char) (language : String) :
    List Nat → Nat → List PyChunk
  | [], prev =>
    if pyStrip (content.drop prev) = [] then []
    else [mkc path language (pyStrip (content.drop prev))]
  | pos :: rest, prev =>
    if cs < (pyStrip (pySlice content prev pos)).length ∨ prev = 0 then
      (if cs < (pyStrip (pySlice content prev pos)).length then
        split_large_chunk cs ov (pyStrip (pySlice content prev pos)) path language
       else if pyStrip (pySlice content prev pos) = [] then []
       else [mkc path language (pyStrip (pySlice content prev pos))]) ++
        walk cs ov content path language rest pos
    else walk cs ov content path language rest prev

/-- `CodeChunker.chunk`. -/
def chunk (cs ov : Nat) (content path : List Char) : List PyChunk :=
  let language := detect_language path
  let positions :=
    sortedDedup (((get_split_patterns language).map (fun re => finditer re content)).flatten)
  if positions = [] then newline_fallback cs ov content path language
  else walk cs ov content path language positions 0

end CodeChunker

/-! ### get_chunker -/

inductive StrategyKind where
  | markdown : StrategyKind
  | text : StrategyKind
  | code : StrategyKind
deriving DecidableEq

/-- A constructed chunker: the selected strategy together with the stored
configuration.  The source constructors store `chunk_size` and `overlap`
unchanged and perform no validation. -/
structure ChunkerCfg where
  kind : StrategyKind
  chunk_size : Nat
  overlap : Nat
deriving DecidableEq

/-- `MarkdownChunker.__init__` (lines 12-14): assigns `self.chunk_size` and
`self.overlap` from its arguments; there is no validation of any kind. -/
def MarkdownChunker.init (chunk_size overlap : Nat) : ChunkerCfg :=
  { kind := .markdown, chunk_size := chunk_size, overlap := overlap }

/-- `CodeChunker.__init__` (lines 100-102): assigns `self.chunk_size` and
`self.overlap` from its arguments; there is no validation of any kind. -/
def CodeChunker.init (chunk_size overlap : Nat) : ChunkerCfg :=
  { kind := .code, chunk_size := chunk_size, overlap := overlap }

/-- `TextChunker.__init__` (lines 264-266): assigns `self.chunk_size` and
`self.overlap` from its arguments; there is no validation of any kind. -/
def TextChunker.init (chunk_size overlap : Nat) : ChunkerCfg :=
  { kind := .text, chunk_size := chunk_size, overlap := overlap }

/-- `get_chunker` (lines 303-311). -/
def get_chunker (path : List Char) (cs ov : Nat) : ChunkerCfg :=
  let ext := (CodeChunker.pathSuffix path).map Char.toLower
  if ext ∈ [".md".toList, ".mdx".toList, ".markdown".toList] then
    MarkdownChunker.init cs ov
  else if ext ∈ [".txt".toList, ".csv".toList, ".log".toList, ".conf".toList,
                 ".ini".toList, ".cfg".toList, ".yaml".toList, ".yml".toList,
                 ".json".toList, ".toml".toList] then
    TextChunker.init cs ov
  else CodeChunker.init cs ov

/-! ### Auxiliary definitions for the claims -/

/-- The piece accumulator that is still live in a `blockAux` state (`acc` is
dead in the `sep` state). -/
def accOf : List Char → BlockState → List Char
  | acc, .plain => acc
  | acc, .afterNL _ => acc
  | _, .sep _ => []

/-- The whitespace buffer carried by a `blockAux` state. -/
def wsOf : BlockState → List Char
  | .plain => []
  | .afterNL w => w
  | .sep buf => buf

/-- The pre-trim accumulation buffers of the sentence-packing loop: the same
recursion as `TextChunker.pack`, recording `current_chunk` at each flush
instead of the stripped chunk. -/
def TextChunker.packBuffers (cs ov : Nat) : List (List Char) → List Char → List (List Char)
  | [], cur =>
    if pyStrip cur = [] then [] else [cur]
  | s :: rest, cur =>
    if cs ≤ cur.length + s.length then
      (if cur = [] then [] else [cur]) ++
        TextChunker.packBuffers cs ov rest
          (if 0 < ov ∧ cur ≠ [] then lastN ov cur ++ ' ' :: s else s)
    else
      TextChunker.packBuffers cs ov rest (if cur = [] then s else cur ++ ' ' :: s)

/-- Pre-trim buffers of `TextChunker.chunk`, one per emitted chunk. -/
def TextChunker.buffers (cs ov : Nat) (content : List Char) : List (List Char) :=
  TextChunker.packBuffers cs ov (splitSentences content) []

/-- The pre-trim accumulation buffers of the Markdown paragraph-packing
loop. -/
def MarkdownChunker.packSectionBuffers (cs ov : Nat) :
    List (List Char) → List Char → List (List Char)
  | [], cur =>
    if pyStrip cur = [] then [] else [cur]
  | p :: rest, cur =>
    if cs ≤ cur.length + p.length then
      (if cur = [] then [] else [cur]) ++
        MarkdownChunker.packSectionBuffers cs ov rest
          ((if 0 < ov ∧ cur ≠ [] then lastN ov cur ++ ['\n', '\n'] else []) ++ p ++ ['\n', '\n'])
    else
      MarkdownChunker.packSectionBuffers cs ov rest (cur ++ p ++ ['\n', '\n'])

/-- The pre-trim accumulation buffers of the `_newline_fallback` block-packing
loop. -/
def CodeChunker.fbPackBuffers (cs ov : Nat) : List (List Char) → List Char → List (List Char)
  | [], cur =>
    if pyStrip cur = [] then [] else [cur]
  | b :: rest, cur =>
    if pyStrip b = [] then CodeChunker.fbPackBuffers cs ov rest cur
    else if cs ≤ cur.length + (pyStrip b).length then
      (if cur = [] then [] else [cur]) ++
        CodeChunker.fbPackBuffers cs ov rest
          ((if 0 < ov ∧ cur ≠ [] then lastN ov cur ++ ['\n', '\n'] else []) ++
            pyStrip b ++ ['\n', '\n'])
    else
      CodeChunker.fbPackBuffers cs ov rest (cur ++ pyStrip b ++ ['\n', '\n'])

/-- The pre-trim accumulation buffers of the `_split_large_chunk` line-packing
loop. -/
def CodeChunker.largePackBuffers (cs ov : Nat) :
    List (List Char) → List Char → List (List Char)
  | [], cur =>
    if pyStrip cur = [] then [] else [cur]
  | ln :: rest, cur =>
    if cs ≤ cur.length + ln.length then
      (if cur = [] then [] else [cur]) ++
        CodeChunker.largePackBuffers cs ov rest
          ((if 0 < ov ∧ cur ≠ [] then CodeChunker.overlapSeed ov cur else []) ++ ln ++ ['\n'])
    else
      CodeChunker.largePackBuffers cs ov rest (cur ++ ln ++ ['\n'])

/-- Pre-trim buffers of `CodeChunker._split_large_chunk`, one per emitted
chunk. -/
def CodeChunker.largeChunkBuffers (cs ov : Nat) (text : List Char) : List (List Char) :=
  CodeChunker.largePackBuffers cs ov (pySplitOn '\n' text) []

/-- The boundary walk as described by the specification's own wording: a
segment is finalized only when it is the first segment (cursor at 0) or its
trimmed length exceeds the chunk size — oversized segments are line-packed,
the others are emitted whole if non-empty; short non-first segments defer the
cursor; after all positions the tail from the cursor is emitted whole if
non-empty regardless of its size. -/
def CodeChunker.walkSpec (cs ov : Nat) (content path : List Char) (language : String) :
    List Nat → Nat → List PyChunk
  | [], cursor =>
    if pyStrip (content.drop cursor) = [] then []
    else [CodeChunker.mkc path language (pyStrip (content.drop cursor))]
  | pos :: rest, cursor =>
    if cs < (pyStrip (pySlice content cursor pos)).length then
      CodeChunker.split_large_chunk cs ov (pyStrip (pySlice content cursor pos)) path language ++
        CodeChunker.walkSpec cs ov content path language rest pos
    else if cursor = 0 then
      (if pyStrip (pySlice content cursor pos) = [] then []
       else [CodeChunker.mkc path language (pyStrip (pySlice content cursor pos))]) ++
        CodeChunker.walkSpec cs ov content path language rest pos
    else CodeChunker.walkSpec cs ov content path language rest cursor

/-- Whether the boundary walk finalizes some oversized segment (the only
situation in which `_split_large_chunk`, and hence the overlap, is used on
this path). -/
def CodeChunker.walkHasOversized (cs : Nat) (content : List Char) :
    List Nat → Nat → Bool
  | [], _ => false
  | pos :: rest, prev =>
    if cs < (pyStrip (pySlice content prev pos)).length then true
    else if prev = 0 then CodeChunker.walkHasOversized cs content rest pos
    else CodeChunker.walkHasOversized cs content rest prev

/-- Overlap continuity between consecutive buffers: the last `ov` characters
of each buffer are a prefix of the next buffer. -/
def OverlapChain (ov : Nat) : List (List Char) → Prop
  | [] => True
  | [_] => True
  | b1 :: b2 :: rest => (lastN ov b1 <+: b2) ∧ OverlapChain ov (b2 :: rest)

/-! ### Facts about `pyStrip` -/

/-- A list with at least one non-whitespace character. -/
def NonBlank (l : List Char) : Prop := ∃ c ∈ l, pySpace c = false

theorem mem_of_mem_dropWhile {p : Char → Bool} {l : List Char} {x : Char}
    (h : x ∈ l.dropWhile p) : x ∈ l := by
  have h2 := List.takeWhile_append_dropWhile (p := p) (l := l)
  rw [← h2]
  exact List.mem_append_right _ h

theorem dropWhile_forall_iff {p : Char → Bool} {l : List Char} :
    (∀ x ∈ l.dropWhile p, p x) ↔ (∀ x ∈ l, p x) := by
  constructor
  · intro h x hx
    have h2 := List.takeWhile_append_dropWhile (p := p) (l := l)
    rw [← h2] at hx
    rcases List.mem_append.1 hx with h3 | h3
    · exact List.mem_takeWhile_imp h3
    · exact h x h3
  · intro h x hx
    exact h x (mem_of_mem_dropWhile hx)

theorem pyStrip_eq_nil_iff {l : List Char} :
    pyStrip l = [] ↔ ∀ c ∈ l, pySpace c = true := by
  unfold pyStrip
  rw [List.reverse_eq_nil_iff, List.dropWhile_eq_nil_iff]
  constructor
  · intro h
    rw [← dropWhile_forall_iff (p := pySpace) (l := l)]
    intro x hx
    exact h x (List.mem_reverse.2 hx)
  · intro h x hx
    exact dropWhile_forall_iff.2 h x (List.mem_reverse.1 hx)

theorem pyStrip_ne_nil_iff {l : List Char} : pyStrip l ≠ [] ↔ NonBlank l := by
  rw [Ne, pyStrip_eq_nil_iff, NonBlank]
  constructor
  · intro h
    by_contra h2
    push_neg at h2
    exact h (fun c hc => eq_true_of_ne_false (h2 c hc))
  · rintro ⟨c, hc, hcf⟩ h
    rw [h c hc] at hcf
    simp at hcf

theorem mem_of_mem_pyStrip {l : List Char} {x : Char} (h : x ∈ pyStrip l) : x ∈ l := by
  unfold pyStrip at h
  rw [List.mem_reverse] at h
  have h2 := mem_of_mem_dropWhile h
  rw [List.mem_reverse] at h2
  exact mem_of_mem_dropWhile h2

theorem dropWhile_head_false {p : Char → Bool} (l : List Char) :
    ∀ {c : Char} {r : List Char}, l.dropWhile p = c :: r → p c = false := by
  induction l with
  | nil => intro c r h; simp [List.dropWhile] at h
  | cons a t ih =>
    intro c r h
    by_cases pa : p a = true
    · rw [List.dropWhile_cons_of_pos pa] at h
      exact ih h
    · rw [List.dropWhile_cons_of_neg pa] at h
      injection h with h1 _
      rw [← h1]
      exact Bool.eq_false_iff.mpr pa

/-- `pyStrip l` is a prefix of `l.dropWhile pySpace` (a right-strip keeps a
prefix). -/
theorem pyStrip_prefix_dropWhile (l : List Char) :
    pyStrip l <+: l.dropWhile pySpace := by
  unfold pyStrip
  refine ⟨((l.dropWhile pySpace).reverse.takeWhile pySpace).reverse, ?_⟩
  rw [← List.reverse_append, List.takeWhile_append_dropWhile, List.reverse_reverse]

theorem pyStrip_head_not_space {l : List Char} {c : Char} {r : List Char}
    (h : pyStrip l = c :: r) : pySpace c = false := by
  rcases pyStrip_prefix_dropWhile l with ⟨t, ht⟩
  rw [h] at ht
  have h2 : l.dropWhile pySpace = c :: (r ++ t) := by rw [← ht]; rfl
  exact dropWhile_head_false l h2

theorem pyStrip_length_le (l : List Char) : (pyStrip l).length ≤ l.length := by
  have h1 := (pyStrip_prefix_dropWhile l).sublist.length_le
  have h2 := (List.dropWhile_sublist (p := pySpace) (l := l)).length_le
  omega

theorem nonBlank_of_pyStrip_ne_nil {l : List Char} (h : pyStrip l ≠ []) :
    NonBlank (pyStrip l) := by
  rcases List.exists_cons_of_ne_nil h with ⟨c, r, hcr⟩
  exact ⟨c, hcr ▸ List.mem_cons_self c r, pyStrip_head_not_space hcr⟩

theorem pyStrip_idem (l : List Char) : pyStrip (pyStrip l) = pyStrip l := by
  cases hs : pyStrip l with
  | nil => rfl
  | cons c r =>
    have hc : pySpace c = false := pyStrip_head_not_space hs
    rw [← hs]
    have h1 : (pyStrip l).dropWhile pySpace = pyStrip l := by
      rw [hs]
      exact List.dropWhile_cons_of_neg (by simp [hc])
    show (((pyStrip l).dropWhile pySpace).reverse.dropWhile pySpace).reverse = pyStrip l
    rw [h1]
    have h2 : (pyStrip l).reverse = (l.dropWhile pySpace).reverse.dropWhile pySpace := by
      simp only [pyStrip, List.reverse_reverse]
    rw [h2, List.dropWhile_idempotent, ← h2, List.reverse_reverse]

theorem nonBlank_append_left {l t : List Char} (h : NonBlank l) : NonBlank (l ++ t) := by
  rcases h with ⟨c, hc, hcf⟩
  exact ⟨c, List.mem_append_left _ hc, hcf⟩

theorem nonBlank_append_right {l t : List Char} (h : NonBlank t) : NonBlank (l ++ t) := by
  rcases h with ⟨c, hc, hcf⟩
  exact ⟨c, List.mem_append_right _ hc, hcf⟩

theorem nonBlank_of_not_all {l : List Char} (h : ¬ ∀ c ∈ l, pySpace c = true) :
    NonBlank l := by
  by_contra h2
  refine h (fun c hc => ?_)
  by_contra h3
  exact h2 ⟨c, hc, by simpa using h3⟩

theorem not_nonBlank_of_all {l : List Char} (h : ∀ c ∈ l, pySpace c = true) :
    ¬ NonBlank l := by
  rintro ⟨c, hc, hcf⟩
  rw [h c hc] at hcf
  simp at hcf

/-! ### Facts about `splitSentences` -/

theorem space_not_sentEnd {c : Char} (h : pySpace c = true) : isSentEnd c = false := by
  by_contra h2
  have h3 : isSentEnd c = true := by
    cases h4 : isSentEnd c
    · exact absurd h4 h2
    · rfl
  simp only [isSentEnd, Bool.or_eq_true, decide_eq_true_eq] at h3
  rcases h3 with (h3 | h3) | h3 <;> subst h3 <;> exact absurd h (by decide)

theorem sentEnd_not_space {c : Char} (h : isSentEnd c = true) : pySpace c = false := by
  simp only [isSentEnd, Bool.or_eq_true, decide_eq_true_eq] at h
  rcases h with (h | h) | h <;> subst h <;> decide

theorem sentAux_ne_nil : ∀ (l acc : List Char) (sk : Bool), sentAux l acc sk ≠ [] := by
  intro l
  induction l with
  | nil => intro acc sk; simp [sentAux]
  | cons c rest ih =>
    intro acc sk
    simp only [sentAux]
    split_ifs
    · exact ih [] true
    · exact ih [c] false
    · simp
    · exact ih (c :: acc) false

theorem sentAux_all_space :
    ∀ (l : List Char), (∀ c ∈ l, pySpace c = true) →
    ∀ (acc : List Char), (∀ c ∈ acc, pySpace c = true) →
    sentAux l acc false = [acc.reverse ++ l] := by
  intro l
  induction l with
  | nil => intro _ acc _; simp [sentAux]
  | cons c rest ih =>
    intro hl acc hacc
    have hc : pySpace c = true := hl c (List.mem_cons_self c rest)
    have hcond : (pySpace c &&
        (match acc.head? with | some d => isSentEnd d | none => false)) = false := by
      cases acc with
      | nil => simp
      | cons d t =>
        have hd : pySpace d = true := hacc d (List.mem_cons_self d t)
        simp [space_not_sentEnd hd]
    have step : sentAux (c :: rest) acc false = sentAux rest (c :: acc) false := by
      simp only [sentAux, hcond]
      simp
    rw [step, ih (fun x hx => hl x (List.mem_cons_of_mem c hx)) (c :: acc)
      (fun x hx => by
        rcases List.mem_cons.1 hx with h | h
        · exact h ▸ hc
        · exact hacc x h)]
    simp

theorem splitSentences_all_space {l : List Char} (h : ∀ c ∈ l, pySpace c = true) :
    splitSentences l = [l] := by
  have h2 := sentAux_all_space l h [] (by simp)
  simpa [splitSentences] using h2

theorem sentAux_dropLast :
    ∀ (l acc : List Char) (sk : Bool) (piece : List Char),
      piece ∈ (sentAux l acc sk).dropLast → ∃ c ∈ piece, isSentEnd c = true := by
  intro l
  induction l with
  | nil => intro acc sk piece h; simp [sentAux] at h
  | cons c rest ih =>
    intro acc sk piece h
    simp only [sentAux] at h
    split_ifs at h with h1 h2 h3
    · exact ih [] true piece h
    · exact ih [c] false piece h
    · rcases List.exists_cons_of_ne_nil (sentAux_ne_nil rest [] true) with ⟨y, ys, hys⟩
      rw [hys, List.dropLast_cons₂] at h
      rcases List.mem_cons.1 h with h4 | h4
      · have h5 : (match acc.head? with | some d => isSentEnd d | none => false) = true :=
          (Bool.and_eq_true _ _ ▸ h3).2
        cases acc with
        | nil => simp at h5
        | cons d t =>
          simp only [List.head?_cons] at h5
          exact ⟨d, by rw [h4]; simp, h5⟩
      · exact ih [] true piece (hys ▸ h4)
    · exact ih (c :: acc) false piece h

theorem sentAux_cover {x : Char} (hx : pySpace x = false) :
    ∀ (l acc : List Char) (sk : Bool), (sk = true → acc = []) →
      (x ∈ l ∨ x ∈ acc) → ∃ piece ∈ sentAux l acc sk, x ∈ piece := by
  intro l
  induction l with
  | nil =>
    intro acc sk _ hmem
    rcases hmem with h | h
    · simp at h
    · exact ⟨acc.reverse, by simp [sentAux], List.mem_reverse.2 h⟩
  | cons c rest ih =>
    intro acc sk hsk hmem
    cases sk with
    | true =>
      have hacc : acc = [] := hsk rfl
      subst hacc
      have hmem2 : x ∈ c :: rest := by
        rcases hmem with h | h
        · exact h
        · simp at h
      simp only [sentAux, if_pos rfl]
      by_cases hc : pySpace c = true
      · rw [if_pos hc]
        have hxr : x ∈ rest := by
          rcases List.mem_cons.1 hmem2 with h | h
          · rw [h] at hx; rw [hc] at hx; simp at hx
          · exact h
        exact ih [] true (fun _ => rfl) (Or.inl hxr)
      · rw [if_neg hc]
        rcases List.mem_cons.1 hmem2 with h | h
        · exact ih [c] false (fun h2 => by simp at h2) (Or.inr (by simp [h]))
        · exact ih [c] false (fun h2 => by simp at h2) (Or.inl h)
    | false =>
      simp only [sentAux]
      rw [if_neg (by simp)]
      by_cases ht : (pySpace c &&
          (match acc.head? with | some d => isSentEnd d | none => false)) = true
      · rw [if_pos ht]
        rcases hmem with h | h
        · rcases List.mem_cons.1 h with h2 | h2
          · have hc : pySpace c = true := (Bool.and_eq_true _ _ ▸ ht).1
            rw [h2] at hx; rw [hc] at hx; simp at hx
          · rcases ih [] true (fun _ => rfl) (Or.inl h2) with ⟨piece, hp1, hp2⟩
            exact ⟨piece, List.mem_cons_of_mem _ hp1, hp2⟩
        · exact ⟨acc.reverse, List.mem_cons_self _ _, List.mem_reverse.2 h⟩
      · rw [if_neg ht]
        rcases hmem with h | h
        · rcases List.mem_cons.1 h with h2 | h2
          · exact ih (c :: acc) false (fun h3 => by simp at h3) (Or.inr (by simp [h2]))
          · exact ih (c :: acc) false (fun h3 => by simp at h3) (Or.inl h2)
        · exact ih (c :: acc) false (fun h3 => by simp at h3)
            (Or.inr (List.mem_cons_of_mem _ h))

theorem splitSentences_cover {x : Char} {l : List Char} (hx : pySpace x = false)
    (h : x ∈ l) : ∃ piece ∈ splitSentences l, x ∈ piece :=
  sentAux_cover hx l [] false (fun h2 => by simp at h2) (Or.inl h)

/-! ### Facts about the other splitters -/

theorem paraAux_cover {x : Char} (hx : pySpace x = false) :
    ∀ (l acc : List Char) (sk : Bool), (sk = true → acc = []) →
      (x ∈ l ∨ x ∈ acc) → ∃ piece ∈ paraAux l acc sk, x ∈ piece := by
  have hnl : x ≠ '\n' := fun he => by rw [he] at hx; simp [pySpace] at hx
  intro l
  induction l with
  | nil =>
    intro acc sk _ hmem
    rcases hmem with h | h
    · simp at h
    · exact ⟨acc.reverse, by simp [paraAux], List.mem_reverse.2 h⟩
  | cons c rest ih =>
    intro acc sk hsk hmem
    cases sk with
    | true =>
      have hacc : acc = [] := hsk rfl
      subst hacc
      have hmem2 : x ∈ c :: rest := by
        rcases hmem with h | h
        · exact h
        · simp at h
      simp only [paraAux, if_pos rfl]
      by_cases hc : c = '\n'
      · rw [if_pos hc]
        have hxr : x ∈ rest := by
          rcases List.mem_cons.1 hmem2 with h | h
          · exact absurd (h.trans hc) hnl
          · exact h
        exact ih [] true (fun _ => rfl) (Or.inl hxr)
      · rw [if_neg hc]
        rcases List.mem_cons.1 hmem2 with h | h
        · exact ih [c] false (fun h2 => by simp at h2) (Or.inr (by simp [h]))
        · exact ih [c] false (fun h2 => by simp at h2) (Or.inl h)
    | false =>
      simp only [paraAux]
      rw [if_neg (by simp)]
      by_cases ht : c = '\n' ∧ acc.head? = some '\n'
      · rw [if_pos ht]
        rcases hmem with h | h
        · rcases List.mem_cons.1 h with h2 | h2
          · exact absurd (h2.trans ht.1) hnl
          · rcases ih [] true (fun _ => rfl) (Or.inl h2) with ⟨piece, hp1, hp2⟩
            exact ⟨piece, List.mem_cons_of_mem _ hp1, hp2⟩
        · cases acc with
          | nil => simp at h
          | cons d t =>
            have hd : d = '\n' := by
              have := ht.2
              simp only [List.head?_cons, Option.some.injEq] at this
              exact this
            have hxt : x ∈ t := by
              rcases List.mem_cons.1 h with h2 | h2
              · exact absurd (h2.trans hd) hnl
              · exact h2
            exact ⟨(d :: t).tail.reverse, List.mem_cons_self _ _, by simp [hxt]⟩
      · rw [if_neg ht]
        rcases hmem with h | h
        · rcases List.mem_cons.1 h with h2 | h2
          · exact ih (c :: acc) false (fun h3 => by simp at h3) (Or.inr (by simp [h2]))
          · exact ih (c :: acc) false (fun h3 => by simp at h3) (Or.inl h2)
        · exact ih (c :: acc) false (fun h3 => by simp at h3)
            (Or.inr (List.mem_cons_of_mem _ h))

theorem splitParagraphs_cover {x : Char} {l : List Char} (hx : pySpace x = false)
    (h : x ∈ l) : ∃ piece ∈ splitParagraphs l, x ∈ piece :=
  paraAux_cover hx l [] false (fun h2 => by simp at h2) (Or.inl h)

theorem heading_mlen_all_space {rest : List Char}
    (h : ∀ c ∈ rest, pySpace c = true) : mlen headingLookahead rest = [] := by
  cases rest with
  | nil => rfl
  | cons c r =>
    have hc : pySpace c = true := h c (List.mem_cons_self c r)
    have hcn : ('#' == c) = false := by
      refine beq_eq_false_iff_ne.mpr (fun he => ?_)
      rw [← he] at hc
      exact absurd hc (by decide)
    simp [mlen, headingLookahead, List.isPrefixOf, hcn]

theorem sectAux_all_space :
    ∀ (l : List Char), (∀ c ∈ l, pySpace c = true) →
    ∀ (acc : List Char), sectAux l acc = [acc.reverse ++ l] := by
  intro l
  induction l with
  | nil => intro _ acc; simp [sectAux]
  | cons c rest ih =>
    intro hl acc
    have hm : mlen headingLookahead rest = [] :=
      heading_mlen_all_space (fun x hx => hl x (List.mem_cons_of_mem c hx))
    have step : sectAux (c :: rest) acc = sectAux rest (c :: acc) := by
      simp only [sectAux]
      rw [if_neg (fun hand => hand.2 hm)]
    rw [step, ih (fun x hx => hl x (List.mem_cons_of_mem c hx)) (c :: acc)]
    simp

theorem splitSections_all_space {l : List Char} (h : ∀ c ∈ l, pySpace c = true) :
    splitSections l = [l] := by
  have h2 := sectAux_all_space l h []
  simpa [splitSections] using h2

theorem sectAux_cover {x : Char} (hx : pySpace x = false) :
    ∀ (l acc : List Char), (x ∈ l ∨ x ∈ acc) → ∃ piece ∈ sectAux l acc, x ∈ piece := by
  have hnl : x ≠ '\n' := fun he => by rw [he] at hx; simp [pySpace] at hx
  intro l
  induction l with
  | nil =>
    intro acc hmem
    rcases hmem with h | h
    · simp at h
    · exact ⟨acc.reverse, by simp [sectAux], List.mem_reverse.2 h⟩
  | cons c rest ih =>
    intro acc hmem
    simp only [sectAux]
    by_cases ht : c = '\n' ∧ mlen headingLookahead rest ≠ []
    · rw [if_pos ht]
      rcases hmem with h | h
      · rcases List.mem_cons.1 h with h2 | h2
        · exact absurd (h2.trans ht.1) hnl
        · rcases ih [] (Or.inl h2) with ⟨piece, hp1, hp2⟩
          exact ⟨piece, List.mem_cons_of_mem _ hp1, hp2⟩
      · exact ⟨acc.reverse, List.mem_cons_self _ _, List.mem_reverse.2 h⟩
    · rw [if_neg ht]
      rcases hmem with h | h
      · rcases List.mem_cons.1 h with h2 | h2
        · exact ih (c :: acc) (Or.inr (by simp [h2]))
        · exact ih (c :: acc) (Or.inl h2)
      · exact ih (c :: acc) (Or.inr (List.mem_cons_of_mem _ h))

theorem splitSections_cover {x : Char} {l : List Char} (hx : pySpace x = false)
    (h : x ∈ l) : ∃ piece ∈ splitSections l, x ∈ piece :=
  sectAux_cover hx l [] (Or.inl h)

theorem splitCharAux_cover {x sep : Char} (hx : x ≠ sep) :
    ∀ (l acc : List Char), (x ∈ l ∨ x ∈ acc) →
      ∃ piece ∈ splitCharAux sep l acc, x ∈ piece := by
  intro l
  induction l with
  | nil =>
    intro acc hmem
    rcases hmem with h | h
    · simp at h
    · exact ⟨acc.reverse, by simp [splitCharAux], List.mem_reverse.2 h⟩
  | cons c rest ih =>
    intro acc hmem
    simp only [splitCharAux]
    by_cases hc : c = sep
    · rw [if_pos hc]
      rcases hmem with h | h
      · rcases List.mem_cons.1 h with h2 | h2
        · exact absurd (h2.trans hc) hx
        · rcases ih [] (Or.inl h2) with ⟨piece, hp1, hp2⟩
          exact ⟨piece, List.mem_cons_of_mem _ hp1, hp2⟩
      · exact ⟨acc.reverse, List.mem_cons_self _ _, List.mem_reverse.2 h⟩
    · rw [if_neg hc]
      rcases hmem with h | h
      · rcases List.mem_cons.1 h with h2 | h2
        · exact ih (c :: acc) (Or.inr (by simp [h2]))
        · exact ih (c :: acc) (Or.inl h2)
      · exact ih (c :: acc) (Or.inr (List.mem_cons_of_mem _ h))

theorem pySplitOn_cover {x sep : Char} {l : List Char} (hx : x ≠ sep) (h : x ∈ l) :
    ∃ piece ∈ pySplitOn sep l, x ∈ piece :=
  splitCharAux_cover hx l [] (Or.inl h)

theorem blockAux_mem :
    ∀ (l acc : List Char) (st : BlockState) (piece : List Char),
      piece ∈ blockAux l acc st → ∀ c ∈ piece,
        c ∈ l ∨ c ∈ acc ∨ c ∈ wsOf st ∨ c = '\n' := by
  intro l
  induction l with
  | nil =>
    intro acc st piece hp c hc
    cases st with
    | plain =>
      simp only [blockAux, List.mem_singleton] at hp
      subst hp
      exact Or.inr (Or.inl (List.mem_reverse.1 hc))
    | afterNL w =>
      simp only [blockAux, List.mem_singleton] at hp
      subst hp
      rcases List.mem_append.1 hc with h | h
      · exact Or.inr (Or.inl (List.mem_reverse.1 h))
      · rcases List.mem_cons.1 h with h | h
        · exact Or.inr (Or.inr (Or.inr h))
        · exact Or.inr (Or.inr (Or.inl (by simp [wsOf, List.mem_reverse.1 h])))
    | sep buf =>
      simp only [blockAux, List.mem_singleton] at hp
      subst hp
      exact Or.inr (Or.inr (Or.inl (by simp [wsOf, List.mem_reverse.1 hc])))
  | cons c' rest ih =>
    intro acc st piece hp c hc
    cases st with
    | plain =>
      simp only [blockAux] at hp
      split_ifs at hp with h1
      · rcases ih acc (.afterNL []) piece hp c hc with h | h | h | h
        · exact Or.inl (List.mem_cons_of_mem _ h)
        · exact Or.inr (Or.inl h)
        · simp [wsOf] at h
        · exact Or.inr (Or.inr (Or.inr h))
      · rcases ih (c' :: acc) .plain piece hp c hc with h | h | h | h
        · exact Or.inl (List.mem_cons_of_mem _ h)
        · rcases List.mem_cons.1 h with h2 | h2
          · exact Or.inl (by simp [h2])
          · exact Or.inr (Or.inl h2)
        · simp [wsOf] at h
        · exact Or.inr (Or.inr (Or.inr h))
    | afterNL w =>
      simp only [blockAux] at hp
      split_ifs at hp with h1 h2
      · rcases List.mem_cons.1 hp with hp2 | hp2
        · subst hp2
          exact Or.inr (Or.inl (List.mem_reverse.1 hc))
        · rcases ih [] (.sep []) piece hp2 c hc with h | h | h | h
          · exact Or.inl (List.mem_cons_of_mem _ h)
          · simp at h
          · simp [wsOf] at h
          · exact Or.inr (Or.inr (Or.inr h))
      · rcases ih acc (.afterNL (c' :: w)) piece hp c hc with h | h | h | h
        · exact Or.inl (List.mem_cons_of_mem _ h)
        · exact Or.inr (Or.inl h)
        · simp only [wsOf] at h
          rcases List.mem_cons.1 h with h3 | h3
          · exact Or.inl (by simp [h3])
          · exact Or.inr (Or.inr (Or.inl (by simp [wsOf, h3])))
        · exact Or.inr (Or.inr (Or.inr h))
      · rcases ih (c' :: (w ++ '\n' :: acc)) .plain piece hp c hc with h | h | h | h
        · exact Or.inl (List.mem_cons_of_mem _ h)
        · rcases List.mem_cons.1 h with h3 | h3
          · exact Or.inl (by simp [h3])
          · rcases List.mem_append.1 h3 with h4 | h4
            · exact Or.inr (Or.inr (Or.inl (by simp [wsOf, h4])))
            · rcases List.mem_cons.1 h4 with h5 | h5
              · exact Or.inr (Or.inr (Or.inr h5))
              · exact Or.inr (Or.inl h5)
        · simp [wsOf] at h
        · exact Or.inr (Or.inr (Or.inr h))
    | sep buf =>
      simp only [blockAux] at hp
      split_ifs at hp with h1 h2
      · rcases ih [] (.sep []) piece hp c hc with h | h | h | h
        · exact Or.inl (List.mem_cons_of_mem _ h)
        · simp at h
        · simp [wsOf] at h
        · exact Or.inr (Or.inr (Or.inr h))
      · rcases ih [] (.sep (c' :: buf)) piece hp c hc with h | h | h | h
        · exact Or.inl (List.mem_cons_of_mem _ h)
        · simp at h
        · simp only [wsOf] at h
          rcases List.mem_cons.1 h with h3 | h3
          · exact Or.inl (by simp [h3])
          · exact Or.inr (Or.inr (Or.inl (by simp [wsOf, h3])))
        · exact Or.inr (Or.inr (Or.inr h))
      · rcases ih (c' :: buf) .plain piece hp c hc with h | h | h | h
        · exact Or.inl (List.mem_cons_of_mem _ h)
        · rcases List.mem_cons.1 h with h3 | h3
          · exact Or.inl (by simp [h3])
          · exact Or.inr (Or.inr (Or.inl (by simp [wsOf, h3])))
        · simp [wsOf] at h
        · exact Or.inr (Or.inr (Or.inr h))

theorem splitBlocks_all_space {l : List Char} (h : ∀ c ∈ l, pySpace c = true) :
    ∀ piece ∈ splitBlocks l, ∀ c ∈ piece, pySpace c = true := by
  intro piece hp c hc
  rcases blockAux_mem l [] .plain piece hp c hc with h2 | h2 | h2 | h2
  · exact h c h2
  · simp at h2
  · simp [wsOf] at h2
  · rw [h2]; decide

theorem blockAux_cover {x : Char} (hx : pySpace x = false) :
    ∀ (l acc : List Char) (st : BlockState), (∀ c ∈ wsOf st, pySpace c = true) →
      (x ∈ l ∨ x ∈ accOf acc st) → ∃ piece ∈ blockAux l acc st, x ∈ piece := by
  have hnl : x ≠ '\n' := fun he => by rw [he] at hx; simp [pySpace] at hx
  intro l
  induction l with
  | nil =>
    intro acc st _ hmem
    cases st with
    | plain =>
      rcases hmem with h | h
      · simp at h
      · exact ⟨acc.reverse, by simp [blockAux], List.mem_reverse.2 h⟩
    | afterNL w =>
      rcases hmem with h | h
      · simp at h
      · exact ⟨acc.reverse ++ '\n' :: w.reverse, by simp [blockAux],
          List.mem_append_left _ (List.mem_reverse.2 h)⟩
    | sep buf =>
      rcases hmem with h | h
      · simp at h
      · simp [accOf] at h
  | cons c' rest ih =>
    intro acc st hws hmem
    cases st with
    | plain =>
      simp only [blockAux]
      by_cases h1 : c' = '\n'
      · rw [if_pos h1]
        have hxr : x ∈ rest ∨ x ∈ accOf acc (.afterNL []) := by
          rcases hmem with h | h
          · rcases List.mem_cons.1 h with h2 | h2
            · exact absurd (h2.trans h1) hnl
            · exact Or.inl h2
          · exact Or.inr h
        exact ih acc (.afterNL []) (by simp [wsOf]) hxr
      · rw [if_neg h1]
        have hxr : x ∈ rest ∨ x ∈ accOf (c' :: acc) .plain := by
          rcases hmem with h | h
          · rcases List.mem_cons.1 h with h2 | h2
            · exact Or.inr (by simp [accOf, h2])
            · exact Or.inl h2
          · exact Or.inr (by simp [accOf] at h ⊢; exact Or.inr h)
        exact ih (c' :: acc) .plain (by simp [wsOf]) hxr
    | afterNL w =>
      simp only [blockAux]
      by_cases h1 : c' = '\n'
      · rw [if_pos h1]
        rcases hmem with h | h
        · rcases List.mem_cons.1 h with h2 | h2
          · exact absurd (h2.trans h1) hnl
          · rcases ih [] (.sep []) (by simp [wsOf]) (Or.inl h2) with ⟨piece, hp1, hp2⟩
            exact ⟨piece, List.mem_cons_of_mem _ hp1, hp2⟩
        · simp only [accOf] at h
          exact ⟨acc.reverse, List.mem_cons_self _ _, List.mem_reverse.2 h⟩
      · rw [if_neg h1]
        by_cases h2 : pySpace c' = true
        · rw [if_pos h2]
          have hxr : x ∈ rest ∨ x ∈ accOf acc (.afterNL (c' :: w)) := by
            rcases hmem with h | h
            · rcases List.mem_cons.1 h with h3 | h3
              · rw [h3] at hx; rw [h2] at hx; simp at hx
              · exact Or.inl h3
            · exact Or.inr h
          refine ih acc (.afterNL (c' :: w)) ?_ hxr
          intro d hd
          rcases List.mem_cons.1 (by simpa [wsOf] using hd) with h3 | h3
          · exact h3 ▸ h2
          · exact hws d (by simpa [wsOf] using h3)
        · rw [if_neg h2]
          have hxr : x ∈ rest ∨ x ∈ accOf (c' :: (w ++ '\n' :: acc)) .plain := by
            rcases hmem with h | h
            · rcases List.mem_cons.1 h with h3 | h3
              · exact Or.inr (by simp [accOf, h3])
              · exact Or.inl h3
            · simp only [accOf] at h
              exact Or.inr (by simp [accOf, h])
          exact ih (c' :: (w ++ '\n' :: acc)) .plain (by simp [wsOf]) hxr
    | sep buf =>
      simp only [blockAux]
      have hmem2 : x ∈ c' :: rest := by
        rcases hmem with h | h
        · exact h
        · simp [accOf] at h
      by_cases h1 : c' = '\n'
      · rw [if_pos h1]
        have hxr : x ∈ rest := by
          rcases List.mem_cons.1 hmem2 with h2 | h2
          · exact absurd (h2.trans h1) hnl
          · exact h2
        exact ih [] (.sep []) (by simp [wsOf]) (Or.inl hxr)
      · rw [if_neg h1]
        by_cases h2 : pySpace c' = true
        · rw [if_pos h2]
          have hxr : x ∈ rest := by
            rcases List.mem_cons.1 hmem2 with h3 | h3
            · rw [h3] at hx; rw [h2] at hx; simp at hx
            · exact h3
          refine ih [] (.sep (c' :: buf)) ?_ (Or.inl hxr)
          intro d hd
          rcases List.mem_cons.1 (by simpa [wsOf] using hd) with h3 | h3
          · exact h3 ▸ h2
          · exact hws d (by simpa [wsOf] using h3)
        · rw [if_neg h2]
          have hxr : x ∈ rest ∨ x ∈ accOf (c' :: buf) .plain := by
            rcases List.mem_cons.1 hmem2 with h3 | h3
            · exact Or.inr (by simp [accOf, h3])
            · exact Or.inl h3
          exact ih (c' :: buf) .plain (by simp [wsOf]) hxr

theorem splitBlocks_cover {x : Char} {l : List Char} (hx : pySpace x = false)
    (h : x ∈ l) : ∃ piece ∈ splitBlocks l, x ∈ piece :=
  blockAux_cover hx l [] .plain (by simp [wsOf]) (Or.inl h)

/-! ### Emptiness of the chunkers (blank in, nothing out; ink in, chunks out) -/

theorem pyStrip_nil : pyStrip [] = [] := rfl

theorem TextChunker.pack_ne_nil (cs ov : Nat) (path : List Char) :
    ∀ (pieces : List (List Char)) (cur : List Char),
      (NonBlank cur ∨ ∃ p ∈ pieces, NonBlank p) →
      TextChunker.pack cs ov path pieces cur ≠ [] := by
  intro pieces
  induction pieces with
  | nil =>
    intro cur h
    rcases h with h | h
    · simp only [pack]
      rw [if_neg (pyStrip_ne_nil_iff.2 h)]
      simp
    · simp at h
  | cons s rest ih =>
    intro cur h
    have hs_or : NonBlank cur ∨ NonBlank s ∨ ∃ p ∈ rest, NonBlank p := by
      rcases h with h | ⟨p, hp, hpnb⟩
      · exact Or.inl h
      · rcases List.mem_cons.1 hp with h2 | h2
        · exact Or.inr (Or.inl (h2 ▸ hpnb))
        · exact Or.inr (Or.inr ⟨p, h2, hpnb⟩)
    simp only [pack]
    split_ifs with h1 h2 h3 h4
    · exact absurd h2 h3.2
    · simp only [List.nil_append]
      rcases hs_or with hh | hh | hh
      · rw [h2] at hh; rcases hh with ⟨c, hc, _⟩; simp at hc
      · exact ih s (Or.inl hh)
      · exact ih s (Or.inr hh)
    · simp
    · simp
    · rename_i h4
      rcases hs_or with hh | hh | hh
      · rw [h4] at hh; rcases hh with ⟨c, hc, _⟩; simp at hc
      · exact ih s (Or.inl hh)
      · exact ih s (Or.inr hh)
    · rcases hs_or with hh | hh | hh
      · exact ih _ (Or.inl (nonBlank_append_left hh))
      · refine ih _ (Or.inl (nonBlank_append_right ?_))
        rcases hh with ⟨c, hc, hcs⟩
        exact ⟨c, List.mem_cons_of_mem _ hc, hcs⟩
      · exact ih _ (Or.inr hh)

theorem TextChunker.text_chunk_blank_iff (cs ov : Nat) (content path : List Char) :
    TextChunker.chunk cs ov content path = [] ↔ ∀ c ∈ content, pySpace c = true := by
  constructor
  · intro h
    by_contra h2
    rcases nonBlank_of_not_all h2 with ⟨x, hx, hxs⟩
    rcases splitSentences_cover hxs hx with ⟨piece, hp1, hp2⟩
    exact TextChunker.pack_ne_nil cs ov path (splitSentences content) []
      (Or.inr ⟨piece, hp1, ⟨x, hp2, hxs⟩⟩) h
  · intro h
    have hstrip : pyStrip content = [] := pyStrip_eq_nil_iff.2 h
    rw [TextChunker.chunk, splitSentences_all_space h]
    have hseed : (if 0 < ov ∧ ([] : List Char) ≠ [] then lastN ov [] ++ ' ' :: content
        else content) = content := by simp
    have hcur : (if ([] : List Char) = [] then ([] : List PyChunk)
        else [TextChunker.mk path (pyStrip [])]) = [] := by simp
    simp only [pack, hseed, hcur]
    split_ifs with h1 <;> simp [pack, hstrip]

theorem MarkdownChunker.packSection_ne_nil (cs ov : Nat) (path : List Char) (idx : Nat) :
    ∀ (pieces : List (List Char)) (cur : List Char),
      (NonBlank cur ∨ ∃ p ∈ pieces, NonBlank p) →
      MarkdownChunker.packSection cs ov path idx pieces cur ≠ [] := by
  intro pieces
  induction pieces with
  | nil =>
    intro cur h
    rcases h with h | h
    · simp only [packSection]
      rw [if_neg (pyStrip_ne_nil_iff.2 h)]
      simp
    · simp at h
  | cons p rest ih =>
    intro cur h
    have hs_or : NonBlank cur ∨ NonBlank p ∨ ∃ q ∈ rest, NonBlank q := by
      rcases h with h | ⟨q, hq, hqnb⟩
      · exact Or.inl h
      · rcases List.mem_cons.1 hq with h2 | h2
        · exact Or.inr (Or.inl (h2 ▸ hqnb))
        · exact Or.inr (Or.inr ⟨q, h2, hqnb⟩)
    simp only [packSection]
    split_ifs with h1 h2 h3
    · exact absurd h2 h3.2
    · simp only [List.nil_append]
      rcases hs_or with hh | hh | hh
      · rw [h2] at hh; rcases hh with ⟨c, hc, _⟩; simp at hc
      · exact ih _ (Or.inl (nonBlank_append_left hh))
      · exact ih _ (Or.inr hh)
    · simp
    · simp
    · rcases hs_or with hh | hh | hh
      · exact ih _ (Or.inl (nonBlank_append_left (nonBlank_append_left hh)))
      · exact ih _ (Or.inl (nonBlank_append_left (nonBlank_append_right hh)))
      · exact ih _ (Or.inr hh)

theorem MarkdownChunker.sections_ne_nil (cs ov : Nat) (path : List Char) :
    ∀ (secs : List (List Char)) (i : Nat),
      (∃ s ∈ secs, NonBlank s) → MarkdownChunker.sections cs ov path secs i ≠ [] := by
  intro secs
  induction secs with
  | nil => intro i h; simp at h
  | cons s rest ih =>
    intro i h
    simp only [sections]
    intro hcontra
    rcases List.append_eq_nil.1 hcontra with ⟨hL, hR⟩
    rcases h with ⟨t, ht, htnb⟩
    rcases List.mem_cons.1 ht with h2 | h2
    · have hstrip : pyStrip s ≠ [] := pyStrip_ne_nil_iff.2 (h2 ▸ htnb)
      rw [if_neg hstrip] at hL
      split_ifs at hL with h3
      · rcases (h2 ▸ htnb) with ⟨x, hx, hxs⟩
        rcases splitParagraphs_cover hxs hx with ⟨piece, hp1, hp2⟩
        exact MarkdownChunker.packSection_ne_nil cs ov path i (splitParagraphs s) []
          (Or.inr ⟨piece, hp1, ⟨x, hp2, hxs⟩⟩) hL
    · exact ih (i + 1) ⟨t, h2, htnb⟩ hR

theorem MarkdownChunker.markdown_chunk_blank_iff (cs ov : Nat) (content path : List Char) :
    MarkdownChunker.chunk cs ov content path = [] ↔ ∀ c ∈ content, pySpace c = true := by
  constructor
  · intro h
    by_contra h2
    rcases nonBlank_of_not_all h2 with ⟨x, hx, hxs⟩
    rcases splitSections_cover hxs hx with ⟨piece, hp1, hp2⟩
    exact MarkdownChunker.sections_ne_nil cs ov path (splitSections content) 0
      ⟨piece, hp1, ⟨x, hp2, hxs⟩⟩ h
  · intro h
    rw [MarkdownChunker.chunk, splitSections_all_space h]
    simp [sections, pyStrip_eq_nil_iff.2 h]

theorem CodeChunker.largePack_ne_nil (cs ov : Nat) (path : List Char) (language : String) :
    ∀ (lns : List (List Char)) (cur : List Char),
      (NonBlank cur ∨ ∃ p ∈ lns, NonBlank p) →
      CodeChunker.largePack cs ov path language lns cur ≠ [] := by
  intro lns
  induction lns with
  | nil =>
    intro cur h
    rcases h with h | h
    · simp only [largePack]
      rw [if_neg (pyStrip_ne_nil_iff.2 h)]
      simp
    · simp at h
  | cons ln rest ih =>
    intro cur h
    have hs_or : NonBlank cur ∨ NonBlank ln ∨ ∃ q ∈ rest, NonBlank q := by
      rcases h with h | ⟨q, hq, hqnb⟩
      · exact Or.inl h
      · rcases List.mem_cons.1 hq with h2 | h2
        · exact Or.inr (Or.inl (h2 ▸ hqnb))
        · exact Or.inr (Or.inr ⟨q, h2, hqnb⟩)
    simp only [largePack]
    split_ifs with h1 h2 h3
    · exact absurd h2 h3.2
    · simp only [List.nil_append]
      rcases hs_or with hh | hh | hh
      · rw [h2] at hh; rcases hh with ⟨c, hc, _⟩; simp at hc
      · exact ih _ (Or.inl (nonBlank_append_left hh))
      · exact ih _ (Or.inr hh)
    · simp
    · simp
    · rcases hs_or with hh | hh | hh
      · exact ih _ (Or.inl (nonBlank_append_left (nonBlank_append_left hh)))
      · exact ih _ (Or.inl (nonBlank_append_left (nonBlank_append_right hh)))
      · exact ih _ (Or.inr hh)

theorem CodeChunker.split_large_chunk_ne_nil (cs ov : Nat) (path : List Char)
    (language : String) {text : List Char} (h : NonBlank text) :
    CodeChunker.split_large_chunk cs ov text path language ≠ [] := by
  rcases h with ⟨x, hx, hxs⟩
  have hnl : x ≠ '\n' := fun he => by rw [he] at hxs; simp [pySpace] at hxs
  rcases pySplitOn_cover hnl hx with ⟨piece, hp1, hp2⟩
  exact CodeChunker.largePack_ne_nil cs ov path language (pySplitOn '\n' text) []
    (Or.inr ⟨piece, hp1, ⟨x, hp2, hxs⟩⟩)

theorem CodeChunker.fbPack_ne_nil (cs ov : Nat) (path : List Char) (language : String) :
    ∀ (blocks : List (List Char)) (cur : List Char),
      (NonBlank cur ∨ ∃ b ∈ blocks, NonBlank b) →
      CodeChunker.fbPack cs ov path language blocks cur ≠ [] := by
  intro blocks
  induction blocks with
  | nil =>
    intro cur h
    rcases h with h | h
    · simp only [fbPack]
      rw [if_neg (pyStrip_ne_nil_iff.2 h)]
      simp
    · simp at h
  | cons b rest ih =>
    intro cur h
    simp only [fbPack]
    split_ifs with h1 h2 h3 h4
    · refine ih cur ?_
      rcases h with h | ⟨q, hq, hqnb⟩
      · exact Or.inl h
      · rcases List.mem_cons.1 hq with h5 | h5
        · exact absurd h1 (pyStrip_ne_nil_iff.2 (h5 ▸ hqnb))
        · exact Or.inr ⟨q, h5, hqnb⟩
    · exact absurd h3 h4.2
    · simp only [List.nil_append]
      refine ih _ (Or.inl ?_)
      exact nonBlank_append_left (nonBlank_of_pyStrip_ne_nil h1)
    · simp
    · simp
    · refine ih _ (Or.inl ?_)
      exact nonBlank_append_left (nonBlank_append_right (nonBlank_of_pyStrip_ne_nil h1))

theorem CodeChunker.fbPack_all_blank (cs ov : Nat) (path : List Char) (language : String) :
    ∀ (blocks : List (List Char)), (∀ b ∈ blocks, pyStrip b = []) →
      CodeChunker.fbPack cs ov path language blocks [] = [] := by
  intro blocks
  induction blocks with
  | nil => intro _; simp [fbPack, pyStrip_nil]
  | cons b rest ih =>
    intro h
    simp only [fbPack]
    rw [if_pos (h b (List.mem_cons_self b rest))]
    exact ih (fun q hq => h q (List.mem_cons_of_mem _ hq))

theorem CodeChunker.newline_fallback_eq_nil_iff (cs ov : Nat) (content path : List Char)
    (language : String) :
    CodeChunker.newline_fallback cs ov content path language = [] ↔
      ∀ c ∈ content, pySpace c = true := by
  constructor
  · intro h
    by_contra h2
    rcases nonBlank_of_not_all h2 with ⟨x, hx, hxs⟩
    rcases splitBlocks_cover hxs hx with ⟨piece, hp1, hp2⟩
    exact CodeChunker.fbPack_ne_nil cs ov path language (splitBlocks content) []
      (Or.inr ⟨piece, hp1, ⟨x, hp2, hxs⟩⟩) h
  · intro h
    exact CodeChunker.fbPack_all_blank cs ov path language (splitBlocks content)
      (fun b hb => pyStrip_eq_nil_iff.2 (splitBlocks_all_space h b hb))

theorem pySlice_subset {l : List Char} {a b : Nat} : pySlice l a b ⊆ l := by
  intro c hc
  exact List.drop_subset a l (List.take_subset _ _ hc)

theorem CodeChunker.walk_all_space (cs ov : Nat) (path : List Char) (language : String)
    {content : List Char} (h : ∀ c ∈ content, pySpace c = true) :
    ∀ (positions : List Nat) (prev : Nat),
      CodeChunker.walk cs ov content path language positions prev = [] := by
  intro positions
  induction positions with
  | nil =>
    intro prev
    have hrem : pyStrip (content.drop prev) = [] :=
      pyStrip_eq_nil_iff.2 (fun c hc => h c (List.drop_subset prev content hc))
    simp [walk, hrem]
  | cons pos rest ih =>
    intro prev
    have hseg : pyStrip (pySlice content prev pos) = [] :=
      pyStrip_eq_nil_iff.2 (fun c hc => h c (pySlice_subset hc))
    simp only [walk, hseg, List.length_nil]
    split_ifs with h1 h2
    · exact absurd h2 (by omega)
    · simp [ih pos]
    · exact ih prev

theorem CodeChunker.walk_ne_nil (cs ov : Nat) (path : List Char) (language : String)
    {content : List Char} :
    ∀ (positions : List Nat) (prev : Nat), NonBlank (content.drop prev) →
      CodeChunker.walk cs ov content path language positions prev ≠ [] := by
  intro positions
  induction positions with
  | nil =>
    intro prev hnb
    simp only [walk]
    rw [if_neg (pyStrip_ne_nil_iff.2 hnb)]
    simp
  | cons pos rest ih =>
    intro prev hnb
    simp only [walk]
    by_cases h1 : cs < (pyStrip (pySlice content prev pos)).length
    · rw [if_pos (Or.inl h1), if_pos h1]
      have hne : pyStrip (pySlice content prev pos) ≠ [] := by
        intro he
        rw [he] at h1
        simp at h1
      intro hcontra
      exact CodeChunker.split_large_chunk_ne_nil cs ov path language
        (nonBlank_of_pyStrip_ne_nil hne) (List.append_eq_nil.1 hcontra).1
    · by_cases h2 : prev = 0
      · subst h2
        rw [if_pos (Or.inr rfl), if_neg h1]
        by_cases h3 : pyStrip (pySlice content 0 pos) = []
        · rw [if_pos h3]
          simp only [List.nil_append]
          refine ih pos ?_
          have hsplit : content.drop 0 = pySlice content 0 pos ++ content.drop pos := by
            simp [pySlice]
          rcases (by simpa [hsplit] using hnb : NonBlank (pySlice content 0 pos ++ content.drop pos)) with ⟨x, hx, hxs⟩
          rcases List.mem_append.1 hx with h4 | h4
          · have := pyStrip_eq_nil_iff.1 h3 x h4
            rw [this] at hxs
            simp at hxs
          · exact ⟨x, h4, hxs⟩
        · rw [if_neg h3]
          simp
      · rw [if_neg (by push_neg; exact ⟨by omega, h2⟩)]
        exact ih prev hnb

theorem CodeChunker.chunk_eq_ite (cs ov : Nat) (content path : List Char) :
    CodeChunker.chunk cs ov content path =
      if sortedDedup (((CodeChunker.get_split_patterns (CodeChunker.detect_language path)).map
          (fun re => finditer re content)).flatten) = []
      then CodeChunker.newline_fallback cs ov content path (CodeChunker.detect_language path)
      else CodeChunker.walk cs ov content path (CodeChunker.detect_language path)
        (sortedDedup (((CodeChunker.get_split_patterns (CodeChunker.detect_language path)).map
          (fun re => finditer re content)).flatten)) 0 := rfl

theorem CodeChunker.code_chunk_blank_iff (cs ov : Nat) (content path : List Char) :
    CodeChunker.chunk cs ov content path = [] ↔ ∀ c ∈ content, pySpace c = true := by
  rw [CodeChunker.chunk_eq_ite]
  split_ifs with hpos
  · exact CodeChunker.newline_fallback_eq_nil_iff cs ov content path _
  · constructor
    · intro h
      by_contra h2
      refine CodeChunker.walk_ne_nil cs ov path _ _ 0 ?_ h
      simpa using nonBlank_of_not_all h2
    · intro h
      exact CodeChunker.walk_all_space cs ov path _ h _ 0

/-! ### One chunk per loop iteration (packing loops cannot run away) -/

theorem TextChunker.pack_length_le (cs ov : Nat) (path : List Char) :
    ∀ (pieces : List (List Char)) (cur : List Char),
      (TextChunker.pack cs ov path pieces cur).length ≤ pieces.length + 1 := by
  intro pieces
  induction pieces with
  | nil => intro cur; simp only [pack]; split_ifs <;> simp
  | cons s rest ih =>
    intro cur
    simp only [pack]
    split_ifs with h1 h2 h3 h4
    · exact absurd h2 h3.2
    · simp only [List.nil_append, List.length_cons]
      exact (ih _).trans (by omega)
    · simp only [List.length_append, List.length_cons, List.length_nil]
      have := ih (lastN ov cur ++ ' ' :: s)
      omega
    · simp only [List.length_append, List.length_cons, List.length_nil]
      have := ih s
      omega
    · simp only [List.length_cons]
      exact (ih _).trans (by omega)
    · simp only [List.length_cons]
      exact (ih _).trans (by omega)

theorem CodeChunker.fbPack_length_le (cs ov : Nat) (path : List Char) (language : String) :
    ∀ (blocks : List (List Char)) (cur : List Char),
      (CodeChunker.fbPack cs ov path language blocks cur).length ≤ blocks.length + 1 := by
  intro blocks
  induction blocks with
  | nil => intro cur; simp only [fbPack]; split_ifs <;> simp
  | cons b rest ih =>
    intro cur
    simp only [fbPack]
    split_ifs with h1 h2 h3 h4
    · simp only [List.length_cons]
      exact (ih _).trans (by omega)
    · exact absurd h3 h4.2
    · simp only [List.nil_append, List.length_cons]
      exact (ih _).trans (by omega)
    · simp only [List.length_append, List.length_cons, List.length_nil]
      have := ih ((lastN ov cur ++ ['\n', '\n']) ++ pyStrip b ++ ['\n', '\n'])
      omega
    · simp only [List.length_append, List.length_cons, List.length_nil]
      have := ih (([] : List Char) ++ pyStrip b ++ ['\n', '\n'])
      omega
    · simp only [List.length_cons]
      exact (ih _).trans (by omega)

theorem CodeChunker.largePack_length_le (cs ov : Nat) (path : List Char) (language : String) :
    ∀ (lns : List (List Char)) (cur : List Char),
      (CodeChunker.largePack cs ov path language lns cur).length ≤ lns.length + 1 := by
  intro lns
  induction lns with
  | nil => intro cur; simp only [largePack]; split_ifs <;> simp
  | cons ln rest ih =>
    intro cur
    simp only [largePack]
    split_ifs with h1 h2 h3
    · exact absurd h2 h3.2
    · simp only [List.nil_append, List.length_cons]
      exact (ih _).trans (by omega)
    · simp only [List.length_append, List.length_cons, List.length_nil]
      have := ih ((CodeChunker.overlapSeed ov cur) ++ ln ++ ['\n'])
      omega
    · simp only [List.length_append, List.length_cons, List.length_nil]
      have := ih (([] : List Char) ++ ln ++ ['\n'])
      omega
    · simp only [List.length_cons]
      exact (ih _).trans (by omega)

/-! ### Overlap continuity of the pre-trim buffers -/

theorem overlapChain_consecutive (ov : Nat) :
    ∀ (pre L : List (List Char)), OverlapChain ov L →
      ∀ (b1 b2 : List Char) (post : List (List Char)),
        L = pre ++ b1 :: b2 :: post → lastN ov b1 <+: b2 := by
  intro pre
  induction pre with
  | nil =>
    intro L hL b1 b2 post heq
    subst heq
    have h2 : (lastN ov b1 <+: b2) ∧ OverlapChain ov (b2 :: post) := hL
    exact h2.1
  | cons a pre' ih =>
    intro L hL b1 b2 post heq
    subst heq
    have hM : OverlapChain ov (pre' ++ b1 :: b2 :: post) := by
      cases hMM : pre' ++ b1 :: b2 :: post with
      | nil =>
        rcases List.append_eq_nil.1 hMM with ⟨_, h3⟩
        simp at h3
      | cons m M' =>
        rw [List.cons_append, hMM] at hL
        have h2 : (lastN ov a <+: m) ∧ OverlapChain ov (m :: M') := hL
        exact h2.2
    exact ih _ hM b1 b2 post rfl

theorem TextChunker.packBuffers_head_extends (cs ov : Nat) :
    ∀ (pieces : List (List Char)) (cur b : List Char), cur ≠ [] →
      (TextChunker.packBuffers cs ov pieces cur).head? = some b → cur <+: b := by
  intro pieces
  induction pieces with
  | nil =>
    intro cur b hcur hhead
    simp only [packBuffers] at hhead
    split_ifs at hhead
    · simp at hhead
    · simp only [List.head?_cons, Option.some.injEq] at hhead
      rw [← hhead]
  | cons s rest ih =>
    intro cur b hcur hhead
    simp only [packBuffers] at hhead
    rw [if_neg hcur] at hhead
    rw [if_neg hcur] at hhead
    split_ifs at hhead with h1 h3
    · simp only [List.singleton_append, List.head?_cons, Option.some.injEq] at hhead
      rw [← hhead]
    · simp only [List.singleton_append, List.head?_cons, Option.some.injEq] at hhead
      rw [← hhead]
    · exact (List.prefix_append cur (' ' :: s)).trans (ih (cur ++ ' ' :: s) b (by simp) hhead)

theorem TextChunker.packBuffers_chain (cs ov : Nat) (hov : 0 < ov) :
    ∀ (pieces : List (List Char)) (cur : List Char),
      OverlapChain ov (TextChunker.packBuffers cs ov pieces cur) := by
  intro pieces
  induction pieces with
  | nil =>
    intro cur
    simp only [packBuffers]
    split_ifs
    · trivial
    · trivial
  | cons s rest ih =>
    intro cur
    by_cases h2 : cur = []
    · subst h2
      simp only [packBuffers]
      have e1 : (if 0 < ov ∧ ([] : List Char) ≠ [] then lastN ov [] ++ ' ' :: s else s) = s := by
        simp
      rw [e1]
      split_ifs with h1 <;> simpa using ih s
    · simp only [packBuffers]
      rw [if_neg h2, if_neg h2]
      by_cases h1 : cs ≤ cur.length + s.length
      · rw [if_pos h1]
        by_cases h3 : 0 < ov ∧ cur ≠ []
        · rw [if_pos h3]
          simp only [List.singleton_append]
          cases hL : TextChunker.packBuffers cs ov rest (lastN ov cur ++ ' ' :: s) with
          | nil => trivial
          | cons b2 L' =>
            refine And.intro ?_ (by rw [← hL]; exact ih _)
            have hext : (lastN ov cur ++ ' ' :: s) <+: b2 :=
              TextChunker.packBuffers_head_extends cs ov rest _ b2 (by simp)
                (by rw [hL]; rfl)
            exact (List.prefix_append (lastN ov cur) (' ' :: s)).trans hext
        · exact absurd ⟨hov, h2⟩ h3
      · rw [if_neg h1]
        exact ih _

theorem MarkdownChunker.packSectionBuffers_head_extends (cs ov : Nat) :
    ∀ (pieces : List (List Char)) (cur b : List Char), cur ≠ [] →
      (MarkdownChunker.packSectionBuffers cs ov pieces cur).head? = some b → cur <+: b := by
  intro pieces
  induction pieces with
  | nil =>
    intro cur b hcur hhead
    simp only [packSectionBuffers] at hhead
    split_ifs at hhead
    · simp at hhead
    · simp only [List.head?_cons, Option.some.injEq] at hhead
      rw [← hhead]
  | cons p rest ih =>
    intro cur b hcur hhead
    simp only [packSectionBuffers] at hhead
    rw [if_neg hcur] at hhead
    split_ifs at hhead with h1 h3
    · simp only [List.singleton_append, List.head?_cons, Option.some.injEq] at hhead
      rw [← hhead]
    · simp only [List.singleton_append, List.head?_cons, Option.some.injEq] at hhead
      rw [← hhead]
    · refine List.IsPrefix.trans ⟨p ++ ['\n', '\n'], by rw [List.append_assoc]⟩
        (ih (cur ++ p ++ ['\n', '\n']) b (by simp) hhead)

theorem MarkdownChunker.packSectionBuffers_chain (cs ov : Nat) (hov : 0 < ov) :
    ∀ (pieces : List (List Char)) (cur : List Char),
      OverlapChain ov (MarkdownChunker.packSectionBuffers cs ov pieces cur) := by
  intro pieces
  induction pieces with
  | nil =>
    intro cur
    simp only [packSectionBuffers]
    split_ifs
    · trivial
    · trivial
  | cons p rest ih =>
    intro cur
    by_cases h2 : cur = []
    · subst h2
      simp only [packSectionBuffers]
      have e1 : (if 0 < ov ∧ ([] : List Char) ≠ [] then lastN ov [] ++ ['\n', '\n'] else []) =
          [] := by simp
      rw [e1]
      split_ifs with h1 <;> simpa using ih _
    · simp only [packSectionBuffers]
      rw [if_neg h2]
      by_cases h1 : cs ≤ cur.length + p.length
      · rw [if_pos h1]
        by_cases h3 : 0 < ov ∧ cur ≠ []
        · rw [if_pos h3]
          simp only [List.singleton_append]
          cases hL : MarkdownChunker.packSectionBuffers cs ov rest
              ((lastN ov cur ++ ['\n', '\n']) ++ p ++ ['\n', '\n']) with
          | nil => trivial
          | cons b2 L' =>
            refine And.intro ?_ (by rw [← hL]; exact ih _)
            have hext : ((lastN ov cur ++ ['\n', '\n']) ++ p ++ ['\n', '\n']) <+: b2 :=
              MarkdownChunker.packSectionBuffers_head_extends cs ov rest _ b2 (by simp)
                (by rw [hL]; rfl)
            refine List.IsPrefix.trans ?_ hext
            exact ⟨['\n', '\n'] ++ p ++ ['\n', '\n'], by simp [List.append_assoc]⟩
        · exact absurd ⟨hov, h2⟩ h3
      · rw [if_neg h1]
        exact ih _

theorem CodeChunker.fbPackBuffers_head_extends (cs ov : Nat) :
    ∀ (blocks : List (List Char)) (cur b : List Char), cur ≠ [] →
      (CodeChunker.fbPackBuffers cs ov blocks cur).head? = some b → cur <+: b := by
  intro blocks
  induction blocks with
  | nil =>
    intro cur b hcur hhead
    simp only [fbPackBuffers] at hhead
    split_ifs at hhead
    · simp at hhead
    · simp only [List.head?_cons, Option.some.injEq] at hhead
      rw [← hhead]
  | cons bl rest ih =>
    intro cur b hcur hhead
    simp only [fbPackBuffers] at hhead
    split_ifs at hhead with h0 h1 h3
    · exact ih cur b hcur hhead
    · simp only [List.singleton_append, List.head?_cons, Option.some.injEq] at hhead
      rw [← hhead]
    · simp only [List.singleton_append, List.head?_cons, Option.some.injEq] at hhead
      rw [← hhead]
    · refine List.IsPrefix.trans ⟨pyStrip bl ++ ['\n', '\n'], by rw [List.append_assoc]⟩
        (ih (cur ++ pyStrip bl ++ ['\n', '\n']) b (by simp) hhead)

theorem CodeChunker.fbPackBuffers_chain (cs ov : Nat) (hov : 0 < ov) :
    ∀ (blocks : List (List Char)) (cur : List Char),
      OverlapChain ov (CodeChunker.fbPackBuffers cs ov blocks cur) := by
  intro blocks
  induction blocks with
  | nil =>
    intro cur
    simp only [fbPackBuffers]
    split_ifs
    · trivial
    · trivial
  | cons bl rest ih =>
    intro cur
    simp only [fbPackBuffers]
    by_cases h0 : pyStrip bl = []
    · rw [if_pos h0]
      exact ih cur
    · rw [if_neg h0]
      by_cases h2 : cur = []
      · subst h2
        have e1 : (if 0 < ov ∧ ([] : List Char) ≠ [] then lastN ov [] ++ ['\n', '\n']
            else []) = [] := by simp
        rw [e1]
        split_ifs with hA hB <;> first | simpa using ih _ | (exfalso; simp_all)
      · rw [if_neg h2]
        by_cases h1 : cs ≤ cur.length + (pyStrip bl).length
        · rw [if_pos h1]
          by_cases h3 : 0 < ov ∧ cur ≠ []
          · rw [if_pos h3]
            simp only [List.singleton_append]
            cases hL : CodeChunker.fbPackBuffers cs ov rest
                ((lastN ov cur ++ ['\n', '\n']) ++ pyStrip bl ++ ['\n', '\n']) with
            | nil => trivial
            | cons b2 L' =>
              refine And.intro ?_ (by rw [← hL]; exact ih _)
              have hext : ((lastN ov cur ++ ['\n', '\n']) ++ pyStrip bl ++ ['\n', '\n']) <+: b2 :=
                CodeChunker.fbPackBuffers_head_extends cs ov rest _ b2 (by simp)
                  (by rw [hL]; rfl)
              refine List.IsPrefix.trans ?_ hext
              exact ⟨['\n', '\n'] ++ pyStrip bl ++ ['\n', '\n'], by simp [List.append_assoc]⟩
          · exact absurd ⟨hov, h2⟩ h3
        · rw [if_neg h1]
          exact ih _

/-! ### Size bound of zero-overlap sentence packing -/

theorem TextChunker.pack_zero_overlap_bound (cs : Nat) (path : List Char)
    (S : List (List Char)) :
    ∀ (pieces : List (List Char)) (cur : List Char),
      (∀ s ∈ pieces, s ∈ S) →
      (cur.length ≤ cs ∨ ∃ s ∈ S, cur = s ∧ cs < s.length) →
      ∀ ch ∈ TextChunker.pack cs 0 path pieces cur,
        ch.content.length ≤ cs ∨ ∃ s ∈ S, ch.content = pyStrip s ∧ cs < s.length := by
  intro pieces
  induction pieces with
  | nil =>
    intro cur _ hcur ch hch
    simp only [pack] at hch
    split_ifs at hch with h1
    · simp at hch
    · simp only [List.mem_singleton] at hch
      subst hch
      rcases hcur with h | ⟨s, hs, hcs, hlen⟩
      · exact Or.inl (le_trans (pyStrip_length_le cur) h)
      · exact Or.inr ⟨s, hs, by rw [hcs]; rfl, hlen⟩
  | cons s rest ih =>
    intro cur hsub hcur ch hch
    have hsub' : ∀ t ∈ rest, t ∈ S := fun t ht => hsub t (List.mem_cons_of_mem _ ht)
    have hs_next : s.length ≤ cs ∨ ∃ t ∈ S, s = t ∧ cs < t.length := by
      by_cases hb : cs < s.length
      · exact Or.inr ⟨s, hsub s (List.mem_cons_self _ _), rfl, hb⟩
      · exact Or.inl (by omega)
    simp only [pack, lt_self_iff_false, false_and, if_false] at hch
    split_ifs at hch with h1 h2 h3
    · simp only [List.nil_append] at hch
      exact ih s hsub' hs_next ch hch
    · rcases List.mem_append.1 hch with hmem | hmem
      · simp only [List.mem_singleton] at hmem
        subst hmem
        rcases hcur with h | ⟨t, ht, hct, hlen⟩
        · exact Or.inl (le_trans (pyStrip_length_le cur) h)
        · exact Or.inr ⟨t, ht, by rw [hct]; rfl, hlen⟩
      · exact ih s hsub' hs_next ch hmem
    · rw [h3] at h1
      simp only [List.length_nil, Nat.zero_add] at h1
      exact ih s hsub' (Or.inl (by omega)) ch hch
    · refine ih _ hsub' (Or.inl ?_) ch hch
      have hlen2 : (cur ++ ' ' :: s).length = cur.length + s.length + 1 := by
        simp only [List.length_append, List.length_cons]
        omega
      omega

/-! ### Chunk contents: which strategies emit trimmed, non-empty text -/

theorem MarkdownChunker.packSection_content (cs ov : Nat) (path : List Char) (idx : Nat) :
    ∀ (pieces : List (List Char)) (cur : List Char),
      ∀ ch ∈ MarkdownChunker.packSection cs ov path idx pieces cur,
        ∃ x, ch.content = pyStrip x := by
  intro pieces
  induction pieces with
  | nil =>
    intro cur ch hch
    simp only [packSection] at hch
    split_ifs at hch
    · simp at hch
    · simp only [List.mem_singleton] at hch
      exact ⟨cur, by rw [hch]; rfl⟩
  | cons p rest ih =>
    intro cur ch hch
    simp only [packSection] at hch
    split_ifs at hch with h1 h2 h3
    · simp only [List.nil_append] at hch
      exact ih _ ch hch
    · simp only [List.nil_append] at hch
      exact ih _ ch hch
    · rcases List.mem_append.1 hch with hmem | hmem
      · simp only [List.mem_singleton] at hmem
        exact ⟨cur, by rw [hmem]; rfl⟩
      · exact ih _ ch hmem
    · rcases List.mem_append.1 hch with hmem | hmem
      · simp only [List.mem_singleton] at hmem
        exact ⟨cur, by rw [hmem]; rfl⟩
      · exact ih _ ch hmem
    · exact ih _ ch hch

theorem MarkdownChunker.chunk_trimmed (cs ov : Nat) (content path : List Char) :
    ∀ ch ∈ MarkdownChunker.chunk cs ov content path,
      pyStrip ch.content = ch.content := by
  have hsec : ∀ (secs : List (List Char)) (i : Nat),
      ∀ ch ∈ MarkdownChunker.sections cs ov path secs i, ∃ x, ch.content = pyStrip x := by
    intro secs
    induction secs with
    | nil => intro i ch hch; simp [sections] at hch
    | cons s rest ih =>
      intro i ch hch
      simp only [sections] at hch
      rcases List.mem_append.1 hch with hmem | hmem
      · split_ifs at hmem with h1 h2
        · simp at hmem
        · exact MarkdownChunker.packSection_content cs ov path i _ _ ch hmem
        · simp only [List.mem_singleton] at hmem
          exact ⟨s, by rw [hmem]; rfl⟩
      · exact ih (i + 1) ch hmem
  intro ch hch
  rcases hsec (splitSections content) 0 ch hch with ⟨x, hx⟩
  rw [hx, pyStrip_idem]

theorem TextChunker.pack_content (cs ov : Nat) (path : List Char) :
    ∀ (pieces : List (List Char)) (cur : List Char),
      (pieces ≠ [] → cur = [] ∨ NonBlank cur) →
      (∀ p ∈ pieces.dropLast, NonBlank p) →
      ∀ ch ∈ TextChunker.pack cs ov path pieces cur,
        ch.content ≠ [] ∧ pyStrip ch.content = ch.content := by
  intro pieces
  induction pieces with
  | nil =>
    intro cur _ _ ch hch
    simp only [pack] at hch
    split_ifs at hch with h1
    · simp at hch
    · simp only [List.mem_singleton] at hch
      subst hch
      exact ⟨h1, pyStrip_idem cur⟩
  | cons s rest ih =>
    intro cur hcur hpieces ch hch
    have hrec : ∀ p ∈ rest.dropLast, NonBlank p := by
      intro p hp
      refine hpieces p ?_
      cases rest with
      | nil => simp at hp
      | cons r rs =>
        rw [List.dropLast_cons₂]
        exact List.mem_cons_of_mem _ hp
    have hs_nb : rest ≠ [] → NonBlank s := by
      intro hne
      rcases List.exists_cons_of_ne_nil hne with ⟨r, rs, hrr⟩
      subst hrr
      refine hpieces s ?_
      rw [List.dropLast_cons₂]
      exact List.mem_cons_self _ _
    have hcur2 : cur = [] ∨ NonBlank cur := hcur (by simp)
    have hnext : ∀ cur2 : List Char, (∃ t, cur2 = t ++ ' ' :: s ∨ cur2 = s) →
        rest ≠ [] → cur2 = [] ∨ NonBlank cur2 := by
      intro cur2 ⟨t, hc⟩ hne
      rcases hs_nb hne with ⟨c, hc2, hcs⟩
      rcases hc with hc | hc
      · exact Or.inr ⟨c, by rw [hc]; exact List.mem_append_right _ (List.mem_cons_of_mem _ hc2), hcs⟩
      · exact Or.inr ⟨c, by rw [hc]; exact hc2, hcs⟩
    simp only [pack] at hch
    split_ifs at hch with h1 h2 h3 h4
    · exact absurd h2 h3.2
    · simp only [List.nil_append] at hch
      exact ih s (fun hne => hnext s ⟨[], Or.inr rfl⟩ hne) hrec ch hch
    · rcases List.mem_append.1 hch with hmem | hmem
      · simp only [List.mem_singleton] at hmem
        subst hmem
        have hnb : NonBlank cur := by
          rcases hcur2 with h | h
          · exact absurd h h2
          · exact h
        exact ⟨pyStrip_ne_nil_iff.2 hnb, pyStrip_idem cur⟩
      · exact ih _ (fun hne => hnext _ ⟨lastN ov cur, Or.inl rfl⟩ hne) hrec ch hmem
    · rcases List.mem_append.1 hch with hmem | hmem
      · simp only [List.mem_singleton] at hmem
        subst hmem
        have hnb : NonBlank cur := by
          rcases hcur2 with h | h
          · exact absurd h h2
          · exact h
        exact ⟨pyStrip_ne_nil_iff.2 hnb, pyStrip_idem cur⟩
      · exact ih s (fun hne => hnext s ⟨[], Or.inr rfl⟩ hne) hrec ch hmem
    · exact ih s (fun hne => hnext s ⟨[], Or.inr rfl⟩ hne) hrec ch hch
    · exact ih _ (fun hne => hnext _ ⟨cur, Or.inl rfl⟩ hne) hrec ch hch

theorem TextChunker.chunk_content (cs ov : Nat) (content path : List Char) :
    ∀ ch ∈ TextChunker.chunk cs ov content path,
      ch.content ≠ [] ∧ pyStrip ch.content = ch.content := by
  intro ch hch
  refine TextChunker.pack_content cs ov path (splitSentences content) []
    (fun _ => Or.inl rfl) ?_ ch hch
  intro p hp
  rcases sentAux_dropLast content [] false p hp with ⟨c, hc, hcs⟩
  exact ⟨c, hc, sentEnd_not_space hcs⟩

/-! ### The boundary walk: source form vs. specification form, and overlap use -/

theorem CodeChunker.walk_eq_walkSpec (cs ov : Nat) (content path : List Char)
    (language : String) :
    ∀ (positions : List Nat) (prev : Nat),
      CodeChunker.walk cs ov content path language positions prev =
        CodeChunker.walkSpec cs ov content path language positions prev := by
  intro positions
  induction positions with
  | nil => intro prev; rfl
  | cons pos rest ih =>
    intro prev
    simp only [walk, walkSpec]
    by_cases hA : cs < (pyStrip (pySlice content prev pos)).length
    · simp only [if_pos (Or.inl hA), if_pos hA, ih]
    · by_cases hB : prev = 0
      · simp only [if_pos (Or.inr hB), if_neg hA, if_pos hB, ih]
      · have hcond : ¬(cs < (pyStrip (pySlice content prev pos)).length ∨ prev = 0) := by
          push_neg
          exact ⟨by omega, hB⟩
        simp only [if_neg hcond, if_neg hA, if_neg hB, ih]

theorem CodeChunker.walk_overlap_independent (cs : Nat) (content path : List Char)
    (language : String) :
    ∀ (positions : List Nat) (prev : Nat),
      CodeChunker.walkHasOversized cs content positions prev = false →
      ∀ ov ov' : Nat,
        CodeChunker.walk cs ov content path language positions prev =
          CodeChunker.walk cs ov' content path language positions prev := by
  intro positions
  induction positions with
  | nil => intro prev _ ov ov'; rfl
  | cons pos rest ih =>
    intro prev hno ov ov'
    simp only [walkHasOversized] at hno
    split_ifs at hno with h1 h2
    · simp only [walk]
      rw [if_pos (Or.inr h2), if_pos (Or.inr h2), if_neg h1, if_neg h1,
        ih pos hno ov ov']
    · simp only [walk]
      have hcond : ¬(cs < (pyStrip (pySlice content prev pos)).length ∨ prev = 0) := by
        push_neg
        exact ⟨by omega, h2⟩
      rw [if_neg hcond, if_neg hcond, ih prev hno ov ov']

/-! ### The claims -/

/-- C1 counterexample: with chunk_size 11 and overlap 0, the Markdown strategy
emits the whole 21-character section `"# A\n\nbb. cc.\n\ndd. ee."` as one
chunk.  Its length exceeds the chunk size, yet it is not a single indivisible
logical unit: it splits into 5 lines, 4 sentences and 3 paragraphs, each of
length at most 11.  So a chunk other than a single oversized line, sentence or
paragraph exceeds the bound, refuting the claim as stated. -/
theorem C1_counterexample :
    (MarkdownChunker.chunk 11 0 ("# A\n\nbb. cc.\n\ndd. ee.".toList)
      ("doc.md".toList)).map PyChunk.content = ["# A\n\nbb. cc.\n\ndd. ee.".toList] ∧
    11 < ("# A\n\nbb. cc.\n\ndd. ee.".toList).length ∧
    1 < (pySplitOn '\n' ("# A\n\nbb. cc.\n\ndd. ee.".toList)).length ∧
    (pySplitOn '\n' ("# A\n\nbb. cc.\n\ndd. ee.".toList)).all
      (fun piece => decide (piece.length ≤ 11)) = true ∧
    1 < (splitSentences ("# A\n\nbb. cc.\n\ndd. ee.".toList)).length ∧
    (splitSentences ("# A\n\nbb. cc.\n\ndd. ee.".toList)).all
      (fun piece => decide (piece.length ≤ 11)) = true ∧
    1 < (splitParagraphs ("# A\n\nbb. cc.\n\ndd. ee.".toList)).length ∧
    (splitParagraphs ("# A\n\nbb. cc.\n\ndd. ee.".toList)).all
      (fun piece => decide (piece.length ≤ 11)) = true := by
  decide

/-- C1 (amended): the size bound with the oversized-unit exception holds for
the Plain-text strategy with zero overlap: every chunk is at most the chunk
size unless it is (the trimmed form of) a single sentence longer than the
chunk size.  The Markdown strategy emits whole sections of up to twice the
chunk size, and overlap seeding and the Code strategy's whole-tail emission
can also exceed the bound, so the claim does not hold as stated for every
strategy. -/
theorem C1_amended (cs : Nat) (content path : List Char) :
    ∀ ch ∈ TextChunker.chunk cs 0 content path,
      ch.content.length ≤ cs ∨
        ∃ s ∈ splitSentences content, ch.content = pyStrip s ∧ cs < s.length := by
  intro ch hch
  exact TextChunker.pack_zero_overlap_bound cs path (splitSentences content)
    (splitSentences content) [] (fun s h => h) (Or.inl (by simp)) ch hch

/-- C1 witness: the amended bound applied to the chunk `"A. B."` produced
from `"A. B. C."` with chunk_size 5. -/
theorem C1_witness :
    (⟨"A. B.".toList, "notes.txt".toList, "text", none, none⟩ : PyChunk) ∈
      TextChunker.chunk 5 0 ("A. B. C.".toList) ("notes.txt".toList) ∧
    ((⟨"A. B.".toList, "notes.txt".toList, "text", none, none⟩ : PyChunk).content.length ≤ 5 ∨
      ∃ s ∈ splitSentences ("A. B. C.".toList),
        (⟨"A. B.".toList, "notes.txt".toList, "text", none, none⟩ : PyChunk).content =
          pyStrip s ∧ 5 < s.length) :=
  ⟨by decide, C1_amended 5 ("A. B. C.".toList) ("notes.txt".toList) _ (by decide)⟩

theorem get_chunker_eq_ite (path : List Char) (cs ov : Nat) :
    get_chunker path cs ov =
      if (CodeChunker.pathSuffix path).map Char.toLower ∈
          [".md".toList, ".mdx".toList, ".markdown".toList] then
        MarkdownChunker.init cs ov
      else if (CodeChunker.pathSuffix path).map Char.toLower ∈
          [".txt".toList, ".csv".toList, ".log".toList, ".conf".toList,
           ".ini".toList, ".cfg".toList, ".yaml".toList, ".yml".toList,
           ".json".toList, ".toml".toList] then
        TextChunker.init cs ov
      else CodeChunker.init cs ov := rfl

/-- C2: no construction path validates the configuration.  Each strategy
constructor (`MarkdownChunker.__init__`, `CodeChunker.__init__`,
`TextChunker.__init__`) and the selector `get_chunker` store `chunk_size` and
`overlap` unchanged for every input — in particular for every overlap ≥
chunk size — and at the concrete failing input `("a.txt", chunk_size 5,
overlap 10)` construction succeeds silently with the invalid configuration
stored, contradicting the claim that it is rejected or clamped. -/
theorem C2_no_validation :
    (∀ cs ov : Nat,
      (MarkdownChunker.init cs ov).chunk_size = cs ∧
        (MarkdownChunker.init cs ov).overlap = ov ∧
      (CodeChunker.init cs ov).chunk_size = cs ∧ (CodeChunker.init cs ov).overlap = ov ∧
      (TextChunker.init cs ov).chunk_size = cs ∧ (TextChunker.init cs ov).overlap = ov) ∧
    (∀ (path : List Char) (cs ov : Nat),
      (get_chunker path cs ov).chunk_size = cs ∧ (get_chunker path cs ov).overlap = ov) ∧
    ((get_chunker ("a.txt".toList) 5 10).kind = StrategyKind.text ∧
      (get_chunker ("a.txt".toList) 5 10).chunk_size = 5 ∧
      (get_chunker ("a.txt".toList) 5 10).overlap = 10 ∧
      ¬ (get_chunker ("a.txt".toList) 5 10).overlap <
          (get_chunker ("a.txt".toList) 5 10).chunk_size) := by
  refine ⟨fun cs ov => ⟨rfl, rfl, rfl, rfl, rfl, rfl⟩, fun path cs ov => ?_, by decide⟩
  rw [get_chunker_eq_ite]
  split_ifs <;> exact ⟨rfl, rfl⟩

/-- C3 counterexample: on `"A. B. C."` with chunk_size 5 and overlap 0, the
Plain-text strategy returns two chunks, `"A. B."` and `"C."`, not the three
single-sentence chunks the claim states: the check `len(current) +
len(sentence) >= chunk_size` lets `"A."` and `"B."` pack into one 5-character
chunk. -/
theorem C3_counterexample :
    (TextChunker.chunk 5 0 ("A. B. C.".toList) ("notes.txt".toList)).map
      PyChunk.content ≠ ["A.".toList, "B.".toList, "C.".toList] ∧
    (TextChunker.chunk 5 0 ("A. B. C.".toList) ("notes.txt".toList)).map
      PyChunk.content = ["A. B.".toList, "C.".toList] := by
  decide

/-- C3 (amended): the Plain-text strategy on `"A. B. C."` with chunk_size 5
and overlap 0 returns exactly two chunks, `"A. B."` then `"C."`, each tagged
`chunk_type = text`. -/
theorem C3_amended (path : List Char) :
    TextChunker.chunk 5 0 ("A. B. C.".toList) path =
      [TextChunker.mk path ("A. B.".toList), TextChunker.mk path ("C.".toList)] := rfl

/-- C4 counterexample: in line packing (`_split_large_chunk` with chunk_size
10, overlap 5) the buffers of the two consecutive chunks are
`"abcdef\ngh\n"` and `"gh\n\nxxxxxxxx\n"`; the last 5 characters of the
first buffer, `"f\ngh\n"`, are not a prefix of the second buffer, because the
seed is made of whole trailing lines totaling fewer than `overlap`
characters, not of the last `overlap` characters. -/
theorem C4_counterexample :
    CodeChunker.largeChunkBuffers 10 5 ("abcdef\ngh\nxxxxxxxx".toList) =
      ["abcdef\ngh\n".toList, "gh\n\nxxxxxxxx\n".toList] ∧
    lastN 5 ("abcdef\ngh\n".toList) = "f\ngh\n".toList ∧
    ¬ (lastN 5 ("abcdef\ngh\n".toList) <+: "gh\n\nxxxxxxxx\n".toList) ∧
    10 < ("abcdef\ngh\nxxxxxxxx".toList).length := by
  decide

/-- C4 (amended): for overlap > 0 the prefix property holds for the
character-tail packers — sentence packing (Plain-text), paragraph packing
(Markdown oversized sections) and the code paragraph fallback: whenever two
consecutive chunks are emitted in one run, the last `overlap` characters of
chunk i's pre-trim buffer are a prefix of chunk i+1's pre-trim buffer.  In
the line packing of an oversized code segment the seed consists of whole
trailing lines instead, so the property fails there. -/
theorem C4_amended (cs ov : Nat) (hov : 0 < ov) :
    (∀ (content : List Char) (pre : List (List Char)) (b1 b2 : List Char)
      (post : List (List Char)),
      TextChunker.buffers cs ov content = pre ++ b1 :: b2 :: post →
        lastN ov b1 <+: b2) ∧
    (∀ (paras pre : List (List Char)) (b1 b2 : List Char) (post : List (List Char)),
      MarkdownChunker.packSectionBuffers cs ov paras [] = pre ++ b1 :: b2 :: post →
        lastN ov b1 <+: b2) ∧
    (∀ (blocks pre : List (List Char)) (b1 b2 : List Char) (post : List (List Char)),
      CodeChunker.fbPackBuffers cs ov blocks [] = pre ++ b1 :: b2 :: post →
        lastN ov b1 <+: b2) :=
  ⟨fun content pre b1 b2 post heq =>
    overlapChain_consecutive ov pre _
      (TextChunker.packBuffers_chain cs ov hov (splitSentences content) []) b1 b2 post heq,
   fun paras pre b1 b2 post heq =>
    overlapChain_consecutive ov pre _
      (MarkdownChunker.packSectionBuffers_chain cs ov hov paras []) b1 b2 post heq,
   fun blocks pre b1 b2 post heq =>
    overlapChain_consecutive ov pre _
      (CodeChunker.fbPackBuffers_chain cs ov hov blocks []) b1 b2 post heq⟩

/-- C4 witness: the amended continuity applied to the two buffers `"ab."` and
`"b. cd."` produced from `"ab. cd."` with chunk_size 4 and overlap 2. -/
theorem C4_witness :
    (0 : Nat) < 2 ∧
    TextChunker.buffers 4 2 ("ab. cd.".toList) =
      [] ++ "ab.".toList :: "b. cd.".toList :: [] ∧
    lastN 2 ("ab.".toList) <+: "b. cd.".toList :=
  ⟨by decide, by decide,
   (C4_amended 4 2 (by decide)).1 ("ab. cd.".toList) [] ("ab.".toList)
     ("b. cd.".toList) [] (by decide)⟩

/-- C5: for every strategy, the returned chunk list is empty exactly when the
content is empty or whitespace-only; in particular blank content yields an
empty sequence and content with at least one non-whitespace character yields
a non-empty sequence, for every configuration. -/
theorem C5_blank_iff_empty (cs ov : Nat) (content path : List Char) :
    (MarkdownChunker.chunk cs ov content path = [] ↔ ∀ c ∈ content, pySpace c = true) ∧
    (CodeChunker.chunk cs ov content path = [] ↔ ∀ c ∈ content, pySpace c = true) ∧
    (TextChunker.chunk cs ov content path = [] ↔ ∀ c ∈ content, pySpace c = true) :=
  ⟨MarkdownChunker.markdown_chunk_blank_iff cs ov content path,
   CodeChunker.code_chunk_blank_iff cs ov content path,
   TextChunker.text_chunk_blank_iff cs ov content path⟩

/-- C6 counterexample: the Markdown strategy with chunk_size 5 and overlap 0
on `"   \n\n   \n\nab"` (one 12-character section, longer than twice the
chunk size, whose first two paragraphs are whitespace-only) emits a chunk
whose content is empty: the paragraph-packing flush is guarded by the raw
buffer being non-empty but strips it before emission.  This refutes the claim
that every returned chunk has non-empty content. -/
theorem C6_counterexample :
    ((MarkdownChunker.chunk 5 0 ("   \n\n   \n\nab".toList)
      ("doc.md".toList)).map PyChunk.content).head? = some [] := by
  decide

/-- C6 (amended): every Plain-text chunk has non-empty, whitespace-trimmed
content, and every Markdown chunk has whitespace-trimmed (possibly empty)
content.  The Code strategy's fallback and line-packing mid-run flushes emit
the raw, untrimmed buffer, and Markdown packing can emit empty content, so
the claim does not hold as stated for every strategy. -/
theorem C6_amended (cs ov : Nat) (content path : List Char) :
    (∀ ch ∈ TextChunker.chunk cs ov content path,
      ch.content ≠ [] ∧ pyStrip ch.content = ch.content) ∧
    (∀ ch ∈ MarkdownChunker.chunk cs ov content path,
      pyStrip ch.content = ch.content) :=
  ⟨TextChunker.chunk_content cs ov content path,
   MarkdownChunker.chunk_trimmed cs ov content path⟩

/-- C6 witness: the amended claim applied to the chunk `"A. B."` produced by
the Plain-text strategy from `"A. B. C."`. -/
theorem C6_witness :
    (⟨"A. B.".toList, "notes.txt".toList, "text", none, none⟩ : PyChunk) ∈
      TextChunker.chunk 5 0 ("A. B. C.".toList) ("notes.txt".toList) ∧
    ((⟨"A. B.".toList, "notes.txt".toList, "text", none, none⟩ : PyChunk).content ≠ [] ∧
      pyStrip (⟨"A. B.".toList, "notes.txt".toList, "text", none, none⟩ : PyChunk).content =
        (⟨"A. B.".toList, "notes.txt".toList, "text", none, none⟩ : PyChunk).content) :=
  ⟨by decide,
   (C6_amended 5 0 ("A. B. C.".toList) ("notes.txt".toList)).1 _ (by decide)⟩

/-- C7: the Code strategy's boundary walk as implemented equals the walk
described by the claim's wording: a segment is finalized only when the cursor
is at 0 or its trimmed length exceeds the chunk size (oversized segments
line-packed, others emitted whole if non-empty), short non-first segments
defer the cursor, and after all positions the tail from the cursor is emitted
whole if non-empty regardless of size. -/
theorem C7_walk_refines_spec (cs ov : Nat) (content path : List Char)
    (language : String) (positions : List Nat) (prev : Nat) :
    CodeChunker.walk cs ov content path language positions prev =
      CodeChunker.walkSpec cs ov content path language positions prev :=
  CodeChunker.walk_eq_walkSpec cs ov content path language positions prev

/-- C8: every strategy's chunk operation is deterministic — identical
content, path, chunk size and overlap give identical chunk lists — and the
Code strategy's language classification is a function of the path's suffix
alone: equal suffixes give equal language tags. -/
theorem C8_deterministic :
    (∀ p1 p2 : List Char, CodeChunker.pathSuffix p1 = CodeChunker.pathSuffix p2 →
      CodeChunker.detect_language p1 = CodeChunker.detect_language p2) ∧
    (∀ (cs ov : Nat) (c1 c2 p1 p2 : List Char), c1 = c2 → p1 = p2 →
      TextChunker.chunk cs ov c1 p1 = TextChunker.chunk cs ov c2 p2 ∧
      MarkdownChunker.chunk cs ov c1 p1 = MarkdownChunker.chunk cs ov c2 p2 ∧
      CodeChunker.chunk cs ov c1 p1 = CodeChunker.chunk cs ov c2 p2) := by
  constructor
  · intro p1 p2 h
    unfold CodeChunker.detect_language
    rw [h]
  · intro cs ov c1 c2 p1 p2 h1 h2
    subst h1
    subst h2
    exact ⟨rfl, rfl, rfl⟩

/-- C8 witness: `"a.py"` and `"src/b.py"` share the suffix `".py"` and are
classified identically; determinism applied at concrete equal inputs. -/
theorem C8_witness :
    CodeChunker.pathSuffix ("a.py".toList) = CodeChunker.pathSuffix ("src/b.py".toList) ∧
    CodeChunker.detect_language ("a.py".toList) =
      CodeChunker.detect_language ("src/b.py".toList) ∧
    (TextChunker.chunk 3 1 ("a".toList) ("p".toList) =
        TextChunker.chunk 3 1 ("a".toList) ("p".toList) ∧
      MarkdownChunker.chunk 3 1 ("a".toList) ("p".toList) =
        MarkdownChunker.chunk 3 1 ("a".toList) ("p".toList) ∧
      CodeChunker.chunk 3 1 ("a".toList) ("p".toList) =
        CodeChunker.chunk 3 1 ("a".toList) ("p".toList)) :=
  ⟨by decide, C8_deterministic.1 ("a.py".toList) ("src/b.py".toList) (by decide),
   C8_deterministic.2 3 1 ("a".toList) ("a".toList) ("p".toList) ("p".toList) rfl rfl⟩

/-- C9: each packing loop emits at most one chunk per element of its finite
split plus a final flush, for every configuration including overlap ≥ chunk
size, so no configuration makes a packing loop produce unboundedly many
chunks — and, the loops being folds over those finite splits, every chunk
operation terminates. -/
theorem C9_loop_bounds (cs ov : Nat) (content path text : List Char)
    (language : String) :
    (TextChunker.chunk cs ov content path).length ≤ (splitSentences content).length + 1 ∧
    (CodeChunker.newline_fallback cs ov content path language).length ≤
      (splitBlocks content).length + 1 ∧
    (CodeChunker.split_large_chunk cs ov text path language).length ≤
      (pySplitOn '\n' text).length + 1 :=
  ⟨TextChunker.pack_length_le cs ov path (splitSentences content) [],
   CodeChunker.fbPack_length_le cs ov path language (splitBlocks content) [],
   CodeChunker.largePack_length_le cs ov path language (pySplitOn '\n' text) []⟩

/-- C10: when the boundary walk finalizes no oversized segment (so every
emitted segment is emitted whole and only the tail remains), its output does
not depend on the configured overlap at all: no overlap text is carried
between whole-emitted chunks; overlap acts only inside the line packing of an
oversized segment and inside the paragraph fallback. -/
theorem C10_walk_overlap_free (cs : Nat) (content path : List Char)
    (language : String) (positions : List Nat) (prev : Nat)
    (h : CodeChunker.walkHasOversized cs content positions prev = false)
    (ov ov' : Nat) :
    CodeChunker.walk cs ov content path language positions prev =
      CodeChunker.walk cs ov' content path language positions prev :=
  CodeChunker.walk_overlap_independent cs content path language positions prev h ov ov'

/-- C10 witness: the walk on `"ab\ncd\nef"` with one boundary position and
chunk size 10 finalizes no oversized segment, and overlaps 5 and 99 give the
same chunks. -/
theorem C10_witness :
    CodeChunker.walkHasOversized 10 ("ab\ncd\nef".toList) [3] 0 = false ∧
    CodeChunker.walk 10 5 ("ab\ncd\nef".toList) ("p.c".toList) "c_cpp" [3] 0 =
      CodeChunker.walk 10 99 ("ab\ncd\nef".toList) ("p.c".toList) "c_cpp" [3] 0 :=
  ⟨by decide,
   C10_walk_overlap_free 10 ("ab\ncd\nef".toList) ("p.c".toList) "c_cpp" [3] 0
     (by decide) 5 99⟩
